import Mathlib

/-!
# Chunked framing of the VMess proxy

A shallow embedding of `proxy/vmess/chunk.go`: the chunked writer, which frames
outgoing bytes as `2-byte big-endian length || payload`, and the chunked reader,
which turns such a stream back into plain bytes.

Conventions of the embedding.

* A Go byte slice is a `List Byte`; a call that fills a caller-supplied slice
  returns the new contents of that slice.
* A Go `error` is an `Option Error`, `none` being `nil`.
* An `io.Reader` handed to `ReadFrom` is a state machine (`ByteReader`); the loop
  of `ReadFrom` has no bound of its own, so it is run with a fuel that counts
  loop iterations and `none` means that the fuel ran out.
* The source under a chunked reader is a script of read results (`Source`), on
  which `io.ReadFull` is total.
* A run-time panic (slice bounds out of range) of `chunkedReader.Read` is the
  result `none`.
-/

namespace vmess

/-! ## Definitions -/

/-- A byte, a number from 0 to 255. -/
abbrev Byte := Fin 256

/-- The error values that occur: `io.EOF`, `io.ErrUnexpectedEOF`, and any other
error of a source or sink, told apart by a code. -/
inductive Error where
  | EOF
  | ErrUnexpectedEOF
  | fault (code : Nat)
  deriving DecidableEq, Repr

/-- Size of the length field of a chunk. -/
def lenSize : Nat := 2

/-- Constant `maxChunkSize = 1 << 14`. -/
def maxChunkSize : Nat := 1 <<< 14

/-- Constant `defaultChunkSize = 1 << 13`. -/
def defaultChunkSize : Nat := 1 <<< 13

/-- Go `binary.BigEndian.PutUint16(b, uint16(v))`: the two bytes stored,
`byte(v >> 8)` and `byte(v)`, after the conversion of `v` to `uint16`. -/
def PutUint16 (v : Nat) : List Byte :=
  [Fin.ofNat ((v % 2 ^ 16) / 256), Fin.ofNat (v % 2 ^ 16)]

/-- Go `binary.BigEndian.Uint16(b)`: `uint16(b[1]) | uint16(b[0])<<8`. The
slices it is applied to here always have two bytes. -/
def Uint16 : List Byte → Nat
  | b0 :: b1 :: _ => b1.val + b0.val * 256
  | _ => 0

/-- Go builtin `copy(dst, src)`: the number of bytes copied and the new contents
of `dst`. -/
def copy (dst src : List Byte) : Nat × List Byte :=
  (min dst.length src.length, src.take (min dst.length src.length) ++ dst.drop (min dst.length src.length))

/-- An `io.Reader` as a state machine: `Read s cap` is a call of `Read` with a
buffer of `cap` bytes in state `s`; it gives the bytes stored at the front of
the buffer, the error, and the next state. -/
structure ByteReader (σ : Type) where
  Read : σ → Nat → (List Byte × Option Error) × σ

/-- Go `(*bytes.Buffer).Read` on a buffer holding the unread bytes `b`: an empty
buffer reports `io.EOF` (or `(0, nil)` for an empty `p`), otherwise
`copy(p, unread)` bytes are handed out with a nil error. -/
def Buffer.Read (b : List Byte) (cap : Nat) : (List Byte × Option Error) × List Byte :=
  if b.isEmpty then
    if cap = 0 then (([], none), []) else (([], some Error.EOF), [])
  else ((b.take cap, none), b.drop cap)

/-- The reader `bytes.NewBuffer(b)`; its state is the unread part of `b`. -/
def bytesBuffer : ByteReader (List Byte) := ⟨Buffer.Read⟩

/-- A source given as the script of the results of its coming reads: each entry
holds the bytes that are ready and the error handed out with the last of them.
Once the script is used up the source reports `io.EOF`. -/
abbrev Source := List (List Byte × Option Error)

/-- One `Read` on a scripted source with a buffer of `cap` bytes: an entry that
fits is handed out whole with its error; of a longer one the first `cap` bytes
are handed out with a nil error and the rest stays. -/
def Source.Read : Source → Nat → (List Byte × Option Error) × Source
  | [], _ => (([], some Error.EOF), [])
  | (bs, e) :: rest, cap =>
    if bs.length ≤ cap then ((bs, e), rest)
    else ((bs.take cap, none), (bs.drop cap, e) :: rest)

/-- A scripted source as an `io.Reader`. -/
def scripted : ByteReader Source := ⟨Source.Read⟩

/-- The loop `for n < min && err == nil { nn, err = r.Read(buf[n:]); n += nn }`
of Go `io.ReadAtLeast`, called with `min = len(buf) = want`, over a scripted
source; `acc` holds the `n` bytes read so far. A read that does not use up its
entry fills the buffer, so the loop is a recursion on the script. -/
def readLoop (want : Nat) : Source → List Byte → List Byte × Option Error × Source
  | [], acc =>
    if acc.length < want then (acc, some Error.EOF, []) else (acc, none, [])
  | (bs, e) :: rest, acc =>
    if acc.length < want then
      if bs.length ≤ want - acc.length then
        match e with
        | none => readLoop want rest (acc ++ bs)
        | some err => (acc ++ bs, some err, rest)
      else
        (acc ++ bs.take (want - acc.length), none, (bs.drop (want - acc.length), e) :: rest)
    else (acc, none, (bs, e) :: rest)

/-- Go `io.ReadFull(r, buf)` with `len(buf) = len`: the bytes read into the front
of `buf`, the error and the source afterwards. The error is nil when `len` bytes
were read, and `io.EOF` after some but not all bytes becomes
`io.ErrUnexpectedEOF`. -/
def ReadFull (r : Source) (len : Nat) : List Byte × Option Error × Source :=
  let res := readLoop len r []
  if res.1.length ≥ len then (res.1, none, res.2.2)
  else if res.1.length > 0 ∧ res.2.1 = some Error.EOF then (res.1, some Error.ErrUnexpectedEOF, res.2.2)
  else res

/-- A sink (`io.Writer`): `writes` lists the buffers passed to `Write` so far,
`results` the errors its coming `Write` calls return (a call beyond the list
succeeds). -/
structure Sink where
  writes : List (List Byte)
  results : List (Option Error)
  deriving DecidableEq, Repr

/-- One `Write` call on a sink: the error returned and the sink afterwards. -/
def Sink.Write (s : Sink) (p : List Byte) : Option Error × Sink :=
  match s.results with
  | [] => (none, { s with writes := s.writes ++ [p] })
  | e :: rest => (e, { writes := s.writes ++ [p], results := rest })

/-- A sink none of whose coming writes fails. -/
def Sink.neverFails (s : Sink) : Prop := ∀ e ∈ s.results, e = none

/-- The struct `chunkedWriter`: the wrapped sink and the scratch buffer. -/
structure chunkedWriter where
  Writer : Sink
  buf : List Byte
  deriving DecidableEq, Repr

/-- Constructor `ChunkedWriter`. -/
def ChunkedWriter (w : Sink) : chunkedWriter :=
  { Writer := w, buf := List.replicate (lenSize + maxChunkSize) 0 }

/-- Method `chunkedWriter.ReadFrom`, run for at most `fuel` iterations of its
loop, `n` being the count so far. Each iteration reads up to `defaultChunkSize`
bytes into `buf[lenSize:]`; if `nr > 0` it adds `nr` to `n`, stores the length in
`buf[:lenSize]` and writes `buf[:lenSize+nr]` to the sink, breaking with the
error of the sink if there is one; then an error of the read ends the loop, and
it is returned unless it is `io.EOF`. The result is `n`, `err`, the writer and
the source afterwards. -/
def chunkedWriter.ReadFrom {σ : Type} (R : ByteReader σ) :
    Nat → chunkedWriter → σ → Nat → Option (Nat × Option Error × chunkedWriter × σ)
  | 0, _, _, _ => none
  | fuel + 1, w, r, n =>
    let res := R.Read r defaultChunkSize
    let nr := res.1.1.length
    let er := res.1.2
    if nr > 0 then
      let buf := PutUint16 nr ++ res.1.1 ++ w.buf.drop (lenSize + nr)
      let wr := w.Writer.Write (buf.take (lenSize + nr))
      match wr.1 with
      | some ew => some (n + nr, some ew, { Writer := wr.2, buf := buf }, res.2)
      | none =>
        match er with
        | some e =>
          some (n + nr, if e = Error.EOF then none else some e, { Writer := wr.2, buf := buf }, res.2)
        | none => chunkedWriter.ReadFrom R fuel { Writer := wr.2, buf := buf } res.2 (n + nr)
    else
      match er with
      | some e => some (n, if e = Error.EOF then none else some e, w, res.2)
      | none => chunkedWriter.ReadFrom R fuel w res.2 n

/-- Method `chunkedWriter.Write`: `ReadFrom(bytes.NewBuffer(b))`, with the count,
the error and the writer afterwards. -/
def chunkedWriter.Write (fuel : Nat) (w : chunkedWriter) (b : List Byte) :
    Option (Nat × Option Error × chunkedWriter) :=
  (chunkedWriter.ReadFrom bytesBuffer fuel w b 0).map fun r => (r.1, r.2.1, r.2.2.1)

/-- The struct `chunkedReader`: the wrapped source, the scratch buffer and the
leftover. In Go the leftover is a slice of `buf`; `buf` is only written on the
path where the leftover has no bytes, so the leftover is kept here as the bytes
it holds. -/
structure chunkedReader where
  Reader : Source
  buf : List Byte
  leftover : List Byte
  deriving DecidableEq, Repr

/-- Constructor `ChunkedReader`. -/
def ChunkedReader (r : Source) : chunkedReader :=
  { Reader := r, buf := List.replicate (lenSize + maxChunkSize) 0, leftover := [] }

/-- Method `chunkedReader.Read` with the caller buffer `b`: `none` is a run-time
panic (a slice expression beyond the capacity of `buf`), otherwise the result is
the count, the error, the caller buffer and the reader afterwards. -/
def chunkedReader.Read (r : chunkedReader) (b : List Byte) :
    Option (Nat × Option Error × List Byte × chunkedReader) :=
  if r.leftover.length > 0 then
    let c := copy b r.leftover
    some (c.1, none, c.2, { r with leftover := r.leftover.drop c.1 })
  else if r.buf.length < lenSize then none
  else
    let h := ReadFull r.Reader lenSize
    let buf1 := h.1 ++ r.buf.drop h.1.length
    match h.2.1 with
    | some e => some (0, some e, b, { r with Reader := h.2.2, buf := buf1 })
    | none =>
      let len := Uint16 (buf1.take lenSize)
      if len = 0 then some (0, none, b, { r with Reader := h.2.2, buf := buf1 })
      else if buf1.length < len then none
      else
        let p := ReadFull h.2.2 len
        let buf2 := p.1 ++ buf1.drop p.1.length
        match p.2.1 with
        | some e => some (0, some e, b, { r with Reader := p.2.2, buf := buf2 })
        | none =>
          let c := copy b (buf2.take len)
          some (c.1, none, c.2,
            { Reader := p.2.2, buf := buf2,
              leftover := if c.1 < len then (buf2.take len).drop c.1 else r.leftover })

/-- All bytes a scripted source still holds, in order. -/
def Source.bytes (s : Source) : List Byte := (s.map Prod.fst).flatten

/-- A source that hands out its bytes without an error and is exhausted after
them, however it splits them over its reads. -/
def Source.clean (s : Source) : Prop := ∀ x ∈ s, x.2 = none

/-- The scratch buffer of the reader has the size the constructor gives it; no
method changes that size. -/
def chunkedReader.allocated (r : chunkedReader) : Prop :=
  r.buf.length = lenSize + maxChunkSize

/-- Go slice expression `b[lo:hi]`. -/
def slice (b : List Byte) (lo hi : Nat) : List Byte := (b.drop lo).take (hi - lo)

/-- The number of chunks of a write of `k` bytes in the words of the
specification, `ceil(k/8192)`. -/
def chunkCount (k : Nat) : Nat := (k + 8191) / 8192

/-- Segment `i` of the input `b` in the words of the specification,
`b[8192*i : min(k, 8192*(i+1))]` with `k` the length of `b`. -/
def segment (b : List Byte) (i : Nat) : List Byte :=
  slice b (8192 * i) (min b.length (8192 * (i + 1)))

/-- A length below 65536 as a 2-byte big-endian unsigned integer, in the words
of the specification: the high byte, then the low byte. -/
def bigEndian16 (n : Nat) : List Byte := [Fin.ofNat (n / 256), Fin.ofNat (n % 256)]

/-- The frames of a write of `b` in the words of the specification: for
`i = 0, 1, ...` in order, the length of segment `i` followed by the segment. -/
def frames (b : List Byte) : List (List Byte) :=
  (List.range (chunkCount b.length)).map fun i => bigEndian16 (segment b i).length ++ segment b i

/-- The bytes a sink has received, in order, when every write so far succeeded. -/
def Sink.received (s : Sink) : List Byte := s.writes.flatten

/-- How a run of successive `Read` calls ended: the buffer sizes ran out before
any call reported an error, a call reported `io.EOF`, a call reported another
error, or a call panicked. -/
inductive Stop where
  | pending
  | eof
  | failed (e : Error)
  | crashed
  deriving DecidableEq, Repr

/-- The caller of the reader in the words of the specification: successive
`Read` calls with fresh caller buffers of the given sizes, up to the first call
that reports an error; the bytes `b[:n]` returned by the calls concatenated in
order, how the run ended, and the reader afterwards. A call that panics returns
nothing, so a run that ends in a panic has no reader afterwards (`none`). -/
def readAll : List Nat → chunkedReader → List Byte × Stop × Option chunkedReader
  | [], r => ([], Stop.pending, some r)
  | s :: sizes, r =>
    match r.Read (List.replicate s 0) with
    | none => ([], Stop.crashed, none)
    | some (n, some e, b, r2) =>
      (b.take n, if e = Error.EOF then Stop.eof else Stop.failed e, some r2)
    | some (n, none, b, r2) =>
      ((b.take n) ++ (readAll sizes r2).1, (readAll sizes r2).2.1, (readAll sizes r2).2.2)

/-- The wire bytes of a sequence of chunks with the given payloads. -/
def encode (ps : List (List Byte)) : List Byte :=
  (ps.map fun p => PutUint16 p.length ++ p).flatten

/-- A source that keeps returning 0 bytes with a nil error. -/
def idle : ByteReader Unit := ⟨fun _ _ => (([], none), ())⟩

/-- The frames of a streamed source in the words of the specification: for the
reads in order, one frame `2-byte big-endian length || bytes` per read that
returned at least one byte. -/
def streamFrames (reads : List (List Byte)) : List (List Byte) :=
  (reads.filter fun x => x ≠ []).map fun x => bigEndian16 x.length ++ x

/-- The declared length that a `Read` call in state `r` decodes, when the call
gets to decode one: the leftover is empty, the scratch buffer holds the length
field, and `io.ReadFull` for the field returns a nil error. It is the value of the
variable `len` of `Read`. -/
def chunkedReader.declared (r : chunkedReader) : Option Nat :=
  if r.leftover.length > 0 then none
  else if r.buf.length < lenSize then none
  else
    match (ReadFull r.Reader lenSize).2.1 with
    | some _ => none
    | none =>
      some (Uint16 (((ReadFull r.Reader lenSize).1
        ++ r.buf.drop (ReadFull r.Reader lenSize).1.length).take lenSize))

/-- One `Read` call on a reader that is kept together with the declared length
of the chunk parsed last (0 before the first chunk): the call that decodes a
length field replaces that length. A panic gives `none`. -/
def readTracked (s : chunkedReader × Nat) (b : List Byte) : Option (chunkedReader × Nat) :=
  match s.1.Read b with
  | none => none
  | some res =>
    some (res.2.2.2,
      match s.1.declared with
      | some len => len
      | none => s.2)

/-- Successive `Read` calls with the given caller buffers on a tracked reader. -/
def runTracked : List (List Byte) → chunkedReader × Nat → Option (chunkedReader × Nat)
  | [], s => some s
  | b :: bufs, s =>
    match readTracked s b with
    | none => none
    | some s2 => runTracked bufs s2

/-- Successive `Write` calls with the given buffers on one writer: the count and
error of every call, and the writer afterwards (`none` if a call runs out of
fuel). -/
def writeAll (fuel : Nat) :
    chunkedWriter → List (List Byte) → Option (List (Nat × Option Error) × chunkedWriter)
  | w, [] => some ([], w)
  | w, b :: bs =>
    match chunkedWriter.Write fuel w b with
    | none => none
    | some res =>
      match writeAll fuel res.2.2 bs with
      | none => none
      | some rest => some ((res.1, res.2.1) :: rest.1, rest.2)

/-- The bytes that `Write(b)` on its own makes a sink receive: a fresh writer
over a sink that never fails and has received nothing. -/
def ownOutput (fuel : Nat) (b : List Byte) : List Byte :=
  match chunkedWriter.Write fuel (ChunkedWriter ⟨[], []⟩) b with
  | none => []
  | some res => res.2.2.Writer.received

/-! ## Theorems -/

/-! ### Constants and the length field -/

/-- The length field has two bytes. -/
theorem lenSize_eq : lenSize = 2 := rfl

/-- Value of `maxChunkSize`. -/
theorem maxChunkSize_eq : maxChunkSize = 16384 := rfl

/-- Value of `defaultChunkSize`. -/
theorem defaultChunkSize_eq : defaultChunkSize = 8192 := rfl

/-- Decoding the stored length field gives the length back, modulo `2^16`. -/
theorem Uint16_PutUint16 (v : Nat) (rest : List Byte) :
    Uint16 (PutUint16 v ++ rest) = v % 65536 := by
  simp only [PutUint16, Uint16, List.cons_append, List.nil_append, Fin.ofNat, Fin.val_mk]
  omega

/-- The length field stored by `PutUint16` has two bytes. -/
theorem PutUint16_length (v : Nat) : (PutUint16 v).length = 2 := rfl

/-! ### `io.ReadFull` on a scripted source -/

/-- The recursion `readLoop` is the loop of `io.ReadAtLeast`: while fewer than
`want` bytes are read, one `Read` with the rest of the buffer, whose error ends
the loop. -/
theorem readLoop_unfold (want : Nat) (src : Source) (acc : List Byte) :
    readLoop want src acc =
      if acc.length < want then
        match (Source.Read src (want - acc.length)).1.2 with
        | none => readLoop want (Source.Read src (want - acc.length)).2
                    (acc ++ (Source.Read src (want - acc.length)).1.1)
        | some e => (acc ++ (Source.Read src (want - acc.length)).1.1, some e,
                    (Source.Read src (want - acc.length)).2)
      else (acc, none, src) := by
  cases src with
  | nil => simp [readLoop, Source.Read]
  | cons x rest =>
    obtain ⟨bs, e⟩ := x
    by_cases h : acc.length < want
    · by_cases hb : bs.length ≤ want - acc.length
      · cases e <;> simp [readLoop, Source.Read, h, hb]
      · simp only [readLoop, Source.Read, h, hb, if_true, if_false]
        have h2 : ¬ (acc ++ List.take (want - acc.length) bs).length < want := by
          simp [List.length_take]; omega
        generalize hacc : acc ++ List.take (want - acc.length) bs = acc2 at *
        rw [readLoop.eq_def]
        simp [h2]
    · simp [readLoop, h]

/-- On an error-free source the loop either reads the bytes it still wants and
leaves the others in the source, or, when the source holds fewer, reads them all
and stops on `io.EOF`. -/
theorem readLoop_clean (want : Nat) : ∀ (src : Source) (acc : List Byte),
    Source.clean src → acc.length ≤ want →
    (want - acc.length ≤ (Source.bytes src).length →
      ∃ src2, readLoop want src acc = (acc ++ (Source.bytes src).take (want - acc.length), none, src2)
        ∧ Source.clean src2 ∧ Source.bytes src2 = (Source.bytes src).drop (want - acc.length)) ∧
    ((Source.bytes src).length < want - acc.length →
      readLoop want src acc = (acc ++ Source.bytes src, some Error.EOF, [])) := by
  intro src
  induction src with
  | nil =>
    intro acc _ hacc
    constructor
    · intro h
      simp [Source.bytes] at h
      have : ¬ acc.length < want := by omega
      exact ⟨[], by simp [readLoop, this, Source.bytes], by simp [Source.clean], by simp [Source.bytes]⟩
    · intro h
      simp [Source.bytes] at h
      have : acc.length < want := by omega
      simp [readLoop, this, Source.bytes]
  | cons x rest ih =>
    obtain ⟨bs, e⟩ := x
    intro acc hc hacc
    have he : e = none := hc (bs, e) (by simp)
    subst he
    have hcr : Source.clean rest := fun y hy => hc y (by simp [hy])
    have hb : Source.bytes ((bs, none) :: rest) = bs ++ Source.bytes rest := by
      simp [Source.bytes]
    rw [hb]
    by_cases h : acc.length < want
    · by_cases hbs : bs.length ≤ want - acc.length
      · have ih2 := ih (acc ++ bs) hcr (by simp; omega)
        have hw : want - (acc ++ bs).length = want - acc.length - bs.length := by
          simp; omega
        rw [hw] at ih2
        constructor
        · intro hl
          simp at hl
          obtain ⟨src2, h1, h2, h3⟩ := ih2.1 (by omega)
          refine ⟨src2, ?_, h2, ?_⟩
          · simp only [readLoop, h, hbs, if_true]
            rw [h1, List.take_append_eq_append_take, List.take_of_length_le hbs]
            simp
          · rw [h3, List.drop_append_eq_append_drop, List.drop_of_length_le hbs]
            simp
        · intro hl
          simp at hl
          have := ih2.2 (by omega)
          simp only [readLoop, h, hbs, if_true]
          rw [this]; simp
      · constructor
        · intro _
          refine ⟨(bs.drop (want - acc.length), none) :: rest, ?_, ?_, ?_⟩
          · simp only [readLoop, h, hbs, if_true, if_false]
            rw [List.take_append_of_le_length (by omega)]
          · intro y hy
            simp at hy
            rcases hy with hy | hy
            · rw [hy]
            · exact hcr y hy
          · rw [List.drop_append_of_le_length (by omega)]
            simp [Source.bytes]
        · intro hl
          simp at hl
          omega
    · have h0 : want - acc.length = 0 := by omega
      rw [h0]
      constructor
      · intro _
        exact ⟨(bs, none) :: rest, by simp [readLoop, h], hc, by simp [hb]⟩
      · intro hl
        simp at hl

/-- A source holding at least `len` bytes: `io.ReadFull` reads the first `len`
with a nil error and leaves the others. -/
theorem ReadFull_clean_ok (src : Source) (len : Nat) (hc : Source.clean src)
    (h : len ≤ (Source.bytes src).length) :
    ∃ src2, ReadFull src len = ((Source.bytes src).take len, none, src2)
      ∧ Source.clean src2 ∧ Source.bytes src2 = (Source.bytes src).drop len := by
  obtain ⟨src2, h1, h2, h3⟩ := (readLoop_clean len src [] hc (by simp)).1 (by simpa using h)
  refine ⟨src2, ?_, h2, by simpa using h3⟩
  simp only [List.length_nil, Nat.sub_zero, List.nil_append] at h1
  have hl : ((Source.bytes src).take len).length ≥ len := by
    simp [List.length_take]; omega
  simp only [ReadFull, h1, hl, if_true]

/-- A source holding fewer than `len` bytes: `io.ReadFull` reads them all and
reports `io.EOF` if there were none, `io.ErrUnexpectedEOF` otherwise. -/
theorem ReadFull_clean_short (src : Source) (len : Nat) (hc : Source.clean src)
    (h : (Source.bytes src).length < len) :
    ReadFull src len =
      (Source.bytes src,
        some (if (Source.bytes src).length = 0 then Error.EOF else Error.ErrUnexpectedEOF), []) := by
  have h1 := (readLoop_clean len src [] hc (by simp)).2 (by simpa using h)
  simp only [List.nil_append] at h1
  have hl : ¬ (Source.bytes src).length ≥ len := by omega
  by_cases h0 : (Source.bytes src).length = 0
  · have hne : ¬ len = 0 := by omega
    simp [ReadFull, h1, hl, h0, hne]
  · have : (Source.bytes src).length > 0 := by omega
    simp [ReadFull, h1, hl, h0, this]
/-! ### Single steps of `chunkedReader.Read` -/

/-- A `Read` with a non-empty leftover, in full. -/
theorem Read_of_leftover (r : chunkedReader) (b : List Byte) (h : r.leftover ≠ []) :
    r.Read b = some (min b.length r.leftover.length, none,
      r.leftover.take (min b.length r.leftover.length) ++ b.drop (min b.length r.leftover.length),
      { r with leftover := r.leftover.drop (min b.length r.leftover.length) }) := by
  have hpos : r.leftover.length > 0 := List.length_pos.mpr h
  simp [chunkedReader.Read, hpos, copy]

/-- A `Read` with an empty leftover on a source whose next bytes are a complete
chunk that fits the scratch buffer: `min(L, len(b))` bytes of the payload are
returned, the others become the leftover, and the source has lost exactly the
chunk. -/
theorem Read_of_chunk (r : chunkedReader) (b : List Byte) (h0 h1 : Byte) (p rest : List Byte)
    (hl : r.leftover = []) (ha : r.allocated) (hc : Source.clean r.Reader)
    (hb : Source.bytes r.Reader = h0 :: h1 :: (p ++ rest))
    (hL : Uint16 [h0, h1] = p.length) (hpos : 1 ≤ p.length)
    (hfit : p.length ≤ lenSize + maxChunkSize) :
    ∃ r2, r.Read b = some (min b.length p.length, none,
        p.take (min b.length p.length) ++ b.drop (min b.length p.length), r2)
      ∧ r2.leftover = p.drop (min b.length p.length)
      ∧ Source.clean r2.Reader ∧ Source.bytes r2.Reader = rest ∧ r2.allocated := by
  unfold chunkedReader.allocated at ha
  obtain ⟨s1, e1, c1, b1⟩ := ReadFull_clean_ok r.Reader lenSize hc (by simp [hb, lenSize])
  simp only [hb, lenSize, List.take_succ_cons, List.take_zero, List.drop_succ_cons, List.drop_zero] at e1 b1
  obtain ⟨s2, e2, c2, b2⟩ := ReadFull_clean_ok s1 p.length c1 (by simp [b1])
  simp only [b1, List.take_left', List.drop_left'] at e2 b2
  have e1' : ReadFull r.Reader lenSize = ([h0, h1], none, s1) := e1
  have hbuf : 2 ≤ r.buf.length := by rw [ha]; simp [lenSize]
  obtain ⟨x0, x1, t, ht⟩ : ∃ x0 x1 t, r.buf = x0 :: x1 :: t := by
    match hr : r.buf with
    | [] => simp [hr] at hbuf
    | [_] => simp [hr] at hbuf
    | x0 :: x1 :: t => exact ⟨x0, x1, t, rfl⟩
  have hlen : ¬ r.leftover.length > 0 := by simp [hl]
  have hns : ¬ r.buf.length < lenSize := by simp [lenSize]; omega
  have hne : ¬ p.length = 0 := by omega
  have hfit2 : ¬ (t.length + 1 + 1 < p.length) := by
    rw [ht] at ha; simp at ha; omega
  simp only [chunkedReader.Read, hlen, hns, if_false, e1']
  simp only [ht, List.length_cons, List.length_nil, List.drop_succ_cons, List.drop_zero, lenSize,
    List.cons_append, List.nil_append, List.take_succ_cons, List.take_zero, hL, hne, if_false,
    hfit2, e2, copy, List.take_left']
  refine ⟨_, rfl, ?_, c2, b2, ?_⟩
  · simp only [hl]
    split
    · rfl
    · rw [List.drop_of_length_le]; omega
  · simp only [chunkedReader.allocated]
    rw [ht] at ha
    simp only [List.length_cons] at ha
    simp [List.length_drop, ← ha]
    omega
/-! ### The writer over an in-memory buffer -/

/-- For a length below 65536 the bytes stored by `PutUint16` are its big-endian
encoding. -/
theorem PutUint16_eq_bigEndian16 (n : Nat) (h : n < 65536) : PutUint16 n = bigEndian16 n := by
  simp only [PutUint16, bigEndian16, Fin.ofNat]
  have h1 : n % 2 ^ 16 = n := Nat.mod_eq_of_lt (by omega)
  simp only [h1, List.cons.injEq, Fin.mk.injEq, and_true]
  exact ⟨trivial, by omega⟩

/-- No chunk for no byte. -/
theorem chunkCount_zero : chunkCount 0 = 0 := rfl

/-- The first segment is the first 8192 bytes. -/
theorem segment_zero (b : List Byte) : segment b 0 = b.take 8192 := by
  simp only [segment, slice, Nat.mul_zero, List.drop_zero, Nat.sub_zero, Nat.zero_add, Nat.mul_one]
  rw [List.take_eq_take]
  omega

/-- Segment `i + 1` is segment `i` of the input without its first 8192 bytes. -/
theorem segment_succ (b : List Byte) (i : Nat) :
    segment b (i + 1) = segment (b.drop 8192) i := by
  simp only [segment, slice, List.drop_drop, List.length_drop]
  have h1 : 8192 + 8192 * i = 8192 * (i + 1) := by omega
  have h2 : min b.length (8192 * (i + 1 + 1)) - 8192 * (i + 1)
      = min (b.length - 8192) (8192 * (i + 1)) - 8192 * i := by omega
  rw [h1, h2]

/-- The empty input has no frame. -/
theorem frames_nil : frames [] = [] := rfl

/-- The frames of a non-empty input: the frame of its first 8192 bytes, then the
frames of the rest. -/
theorem frames_cons (b : List Byte) (h : b ≠ []) :
    frames b = (bigEndian16 (b.take 8192).length ++ b.take 8192) :: frames (b.drop 8192) := by
  have hpos : 0 < b.length := List.length_pos.mpr h
  have hc : chunkCount b.length = chunkCount (b.drop 8192).length + 1 := by
    simp only [chunkCount, List.length_drop]
    omega
  simp only [frames, hc, List.range_succ_eq_map, List.map_cons, List.map_map, segment_zero]
  rw [List.cons.injEq]
  refine ⟨rfl, ?_⟩
  apply List.map_congr_left
  intro i _
  simp [segment_succ]

/-- A write to a sink that never fails succeeds, is recorded, and leaves a sink
that never fails. -/
theorem Sink_Write_ok (s : Sink) (p : List Byte) (h : s.neverFails) :
    (s.Write p).1 = none ∧ (s.Write p).2.writes = s.writes ++ [p] ∧ (s.Write p).2.neverFails := by
  unfold Sink.neverFails at *
  unfold Sink.Write
  cases hr : s.results with
  | nil => simp [hr]
  | cons e rest =>
    rw [hr] at h
    have he : e = none := h e (by simp)
    subst he
    refine ⟨rfl, rfl, ?_⟩
    intro e he
    exact h e (by simp [he])

/-- The loop of `ReadFrom` over `bytes.NewBuffer(b)` on a sink that never fails:
with fuel for `ceil(k/8192) + 1` iterations it ends with `n + len(b)` and a nil
error, having written the frames of `b`. -/
theorem ReadFrom_bytesBuffer (fuel : Nat) : ∀ (b : List Byte) (w : chunkedWriter) (n : Nat),
    w.Writer.neverFails → chunkCount b.length + 1 ≤ fuel →
    ∃ w2, chunkedWriter.ReadFrom bytesBuffer fuel w b n = some (n + b.length, none, w2, [])
      ∧ w2.Writer.writes = w.Writer.writes ++ frames b ∧ w2.Writer.neverFails := by
  induction fuel with
  | zero => intro b w n _ h; omega
  | succ fuel ih =>
    intro b w n hw hf
    by_cases hb : b = []
    · subst hb
      refine ⟨w, ?_, by simp [frames_nil], hw⟩
      simp [chunkedWriter.ReadFrom, bytesBuffer, Buffer.Read, defaultChunkSize]
    · have hpos : 0 < b.length := List.length_pos.mpr hb
      have hemp : b.isEmpty = false := by
        cases b with
        | nil => exact absurd rfl hb
        | cons _ _ => rfl
      have hnr : (b.take defaultChunkSize).length > 0 := by
        simp [List.length_take, defaultChunkSize]; omega
      have hlt : (b.take defaultChunkSize).length < 65536 :=
        lt_of_le_of_lt (List.length_take_le _ _) (by decide)
      have hread : bytesBuffer.Read b defaultChunkSize =
          ((b.take defaultChunkSize, none), b.drop defaultChunkSize) := by
        simp [bytesBuffer, Buffer.Read, hemp]
      obtain ⟨hs1, hs2, hs3⟩ := Sink_Write_ok w.Writer
        (PutUint16 (b.take defaultChunkSize).length ++ b.take defaultChunkSize) hw
      have htake : (PutUint16 (b.take defaultChunkSize).length ++ b.take defaultChunkSize ++
          w.buf.drop (lenSize + (b.take defaultChunkSize).length)).take
            (lenSize + (b.take defaultChunkSize).length)
          = PutUint16 (b.take defaultChunkSize).length ++ b.take defaultChunkSize := by
        apply List.take_left'
        simp [PutUint16_length, lenSize]
      have hc : chunkCount (b.drop defaultChunkSize).length + 1 ≤ fuel := by
        simp only [chunkCount, List.length_drop, defaultChunkSize] at hf ⊢
        have : (1 <<< 13 : Nat) = 8192 := rfl
        omega
      obtain ⟨w2, h1, h2, h3⟩ := ih (b.drop defaultChunkSize)
        { Writer := (w.Writer.Write (PutUint16 (b.take defaultChunkSize).length ++
            b.take defaultChunkSize)).2,
          buf := PutUint16 (b.take defaultChunkSize).length ++ b.take defaultChunkSize ++
            w.buf.drop (lenSize + (b.take defaultChunkSize).length) }
        (n + (b.take defaultChunkSize).length) hs3 hc
      refine ⟨w2, ?_, ?_, h3⟩
      · simp only [chunkedWriter.ReadFrom, hread, hnr, if_true, htake, hs1]
        rw [h1]
        simp only [List.length_take, List.length_drop, Option.some.injEq, Prod.mk.injEq, and_true]
        omega
      · rw [h2, hs2, frames_cons b hb, PutUint16_eq_bigEndian16 _ hlt]
        simp [defaultChunkSize]
/-- Length of segment `i`. -/
theorem segment_length (b : List Byte) (i : Nat) :
    (segment b i).length = min b.length (8192 * (i + 1)) - 8192 * i := by
  simp only [segment, slice, List.length_take, List.length_drop]
  omega

/-- The method `Write` on a sink that never fails. -/
theorem Write_on_good_sink (fuel : Nat) (w : chunkedWriter) (b : List Byte)
    (hw : w.Writer.neverFails) (hf : chunkCount b.length + 1 ≤ fuel) :
    ∃ w2, chunkedWriter.Write fuel w b = some (b.length, none, w2)
      ∧ w2.Writer.writes = w.Writer.writes ++ frames b ∧ w2.Writer.neverFails := by
  obtain ⟨w2, h1, h2, h3⟩ := ReadFrom_bytesBuffer fuel b w 0 hw hf
  exact ⟨w2, by simp [chunkedWriter.Write, h1], h2, h3⟩

/-- C2. Wire format of Write: on a sink that never fails, with fuel for the
`ceil(k/8192) + 1` iterations of the loop, `Write(b)` returns `(len(b), nil)` and
the sink receives, one write per frame and in order, the frames `len_i || seg_i`
of the segments `seg_i = b[8192*i : min(k, 8192*(i+1))]`, each non-empty and with
its length as a 2-byte big-endian integer. -/
theorem chunkedWriter_Write_wire_format (fuel : Nat) (w : chunkedWriter) (b : List Byte)
    (hw : w.Writer.neverFails) (hf : chunkCount b.length + 1 ≤ fuel) :
    ∃ w2, chunkedWriter.Write fuel w b = some (b.length, none, w2)
      ∧ w2.Writer.writes = w.Writer.writes ++
          (List.range (chunkCount b.length)).map
            (fun i => bigEndian16 (segment b i).length ++ segment b i)
      ∧ w2.Writer.received = w.Writer.received ++
          ((List.range (chunkCount b.length)).map
            (fun i => bigEndian16 (segment b i).length ++ segment b i)).flatten
      ∧ ∀ i, i < chunkCount b.length →
          segment b i ≠ [] ∧ (segment b i).length < 65536
            ∧ Uint16 (bigEndian16 (segment b i).length) = (segment b i).length := by
  obtain ⟨w2, h1, h2, _⟩ := Write_on_good_sink fuel w b hw hf
  refine ⟨w2, h1, h2, ?_, ?_⟩
  · simp only [Sink.received, h2, List.flatten_append, frames]
  · intro i hi
    have hlen := segment_length b i
    have hpos : 0 < (segment b i).length := by
      rw [hlen]; simp only [chunkCount] at hi; omega
    have hlt : (segment b i).length < 65536 := by rw [hlen]; omega
    refine ⟨List.length_pos.mp hpos, hlt, ?_⟩
    rw [← PutUint16_eq_bigEndian16 _ hlt]
    have := Uint16_PutUint16 (segment b i).length []
    simp only [List.append_nil] at this
    rw [this]; omega

/-- Witness of C2: writing "hello" to a fresh sink emits `0x00 0x05 h e l l o`. -/
theorem chunkedWriter_Write_wire_format_witness :
    (ChunkedWriter ⟨[], []⟩).Writer.neverFails ∧
    chunkCount ([104, 101, 108, 108, 111] : List Byte).length + 1 ≤ 2 ∧
    ∃ w2, chunkedWriter.Write 2 (ChunkedWriter ⟨[], []⟩) [104, 101, 108, 108, 111]
        = some (5, none, w2)
      ∧ w2.Writer.writes = [[0, 5, 104, 101, 108, 108, 111]] := by
  have h1 : (ChunkedWriter ⟨[], []⟩).Writer.neverFails := by
    intro e he; simp [ChunkedWriter] at he
  have h2 : chunkCount ([104, 101, 108, 108, 111] : List Byte).length + 1 ≤ 2 := by decide
  obtain ⟨w2, e1, e2, _⟩ :=
    chunkedWriter_Write_wire_format 2 (ChunkedWriter ⟨[], []⟩) [104, 101, 108, 108, 111] h1 h2
  exact ⟨h1, h2, w2, e1, by rw [e2]; decide⟩

/-- C3. Chunk size bound: on a sink that never fails, with fuel for the
`ceil(k/8192) + 1` iterations of the loop, a write of `k` bytes makes exactly
`ceil(k/8192)` sink writes; every payload has at most 8192 bytes, every one but the
last exactly 8192, and the last `k - 8192*(ceil(k/8192)-1)`. -/
theorem chunkedWriter_Write_chunk_sizes (fuel : Nat) (w : chunkedWriter) (b : List Byte)
    (hw : w.Writer.neverFails) (hf : chunkCount b.length + 1 ≤ fuel) :
    (b.length ≤ 8192 * chunkCount b.length ∧ 8192 * chunkCount b.length < b.length + 8192) ∧
    ∃ w2 ws, chunkedWriter.Write fuel w b = some (b.length, none, w2)
      ∧ w2.Writer.writes = w.Writer.writes ++ ws
      ∧ ws.length = chunkCount b.length
      ∧ (∀ f ∈ ws, (f.drop lenSize).length ≤ 8192)
      ∧ ws.map (fun f => (f.drop lenSize).length) =
          (List.range (chunkCount b.length)).map
            (fun i => if i + 1 < chunkCount b.length then 8192
              else b.length - 8192 * (chunkCount b.length - 1)) := by
  obtain ⟨w2, h1, h2, _⟩ := Write_on_good_sink fuel w b hw hf
  refine ⟨by simp only [chunkCount]; omega, w2, frames b, h1, h2, by simp [frames], ?_, ?_⟩
  · intro f hf
    simp only [frames, List.mem_map, List.mem_range] at hf
    obtain ⟨i, _, rfl⟩ := hf
    have : ((bigEndian16 (segment b i).length ++ segment b i).drop lenSize) = segment b i :=
      List.drop_left' rfl
    rw [this, segment_length]; omega
  · simp only [frames, List.map_map]
    apply List.map_congr_left
    intro i hi
    simp only [List.mem_range] at hi
    have : ((bigEndian16 (segment b i).length ++ segment b i).drop lenSize) = segment b i :=
      List.drop_left' rfl
    simp only [Function.comp]
    rw [this, segment_length]
    simp only [chunkCount] at hi ⊢
    split <;> omega

/-- Witness of C3: a write of 20000 bytes makes three sink writes with payloads of
8192, 8192 and 3616 bytes. -/
theorem chunkedWriter_Write_chunk_sizes_witness :
    (ChunkedWriter ⟨[], []⟩).Writer.neverFails ∧
    chunkCount (List.replicate 20000 (7 : Byte)).length + 1 ≤ 4 ∧
    ∃ w2 ws, chunkedWriter.Write 4 (ChunkedWriter ⟨[], []⟩) (List.replicate 20000 7)
        = some (20000, none, w2)
      ∧ w2.Writer.writes = ws
      ∧ ws.map (fun f => (f.drop lenSize).length) = [8192, 8192, 3616] := by
  have h1 : (ChunkedWriter ⟨[], []⟩).Writer.neverFails := by
    intro e he; simp [ChunkedWriter] at he
  have hl : (List.replicate 20000 (7 : Byte)).length = 20000 := List.length_replicate _ _
  have h2 : chunkCount (List.replicate 20000 (7 : Byte)).length + 1 ≤ 4 := by
    rw [hl]; decide
  obtain ⟨_, w2, ws, e1, e2, _, _, e5⟩ :=
    chunkedWriter_Write_chunk_sizes 4 (ChunkedWriter ⟨[], []⟩) (List.replicate 20000 7) h1 h2
  refine ⟨h1, h2, w2, ws, ?_, ?_, ?_⟩
  · rw [e1, hl]
  · rw [e2]; simp [ChunkedWriter]
  · rw [e5, hl]; decide
/-! ### Steps of `chunkedReader.Read` that end a stream, fail or panic -/

/-- An allocated scratch buffer has its first two bytes. -/
theorem buf_two_of_allocated (r : chunkedReader) (ha : r.allocated) :
    ∃ x0 x1 t, r.buf = x0 :: x1 :: t ∧ t.length + 2 = lenSize + maxChunkSize := by
  unfold chunkedReader.allocated at ha
  match hr : r.buf with
  | [] => rw [hr] at ha; simp [lenSize, maxChunkSize] at ha
  | [_] => rw [hr] at ha; simp [lenSize, maxChunkSize] at ha
  | x0 :: x1 :: t => exact ⟨x0, x1, t, rfl, by rw [hr] at ha; simpa using ha⟩

/-- A declared length above the size of the scratch buffer makes `Read` panic on
`r.buf[:len]`. -/
theorem Read_of_oversize (r : chunkedReader) (b : List Byte) (h0 h1 : Byte) (rest : List Byte)
    (hl : r.leftover = []) (ha : r.allocated) (hc : Source.clean r.Reader)
    (hb : Source.bytes r.Reader = h0 :: h1 :: rest)
    (hL : lenSize + maxChunkSize < Uint16 [h0, h1]) :
    r.Read b = none := by
  obtain ⟨s1, e1, c1, b1⟩ := ReadFull_clean_ok r.Reader lenSize hc (by simp [hb, lenSize])
  simp only [hb, lenSize, List.take_succ_cons, List.take_zero] at e1
  have e1' : ReadFull r.Reader lenSize = ([h0, h1], none, s1) := e1
  obtain ⟨x0, x1, t, ht, hlen⟩ := buf_two_of_allocated r ha
  have hlen0 : ¬ r.leftover.length > 0 := by simp [hl]
  have hns : ¬ r.buf.length < lenSize := by rw [ht]; simp [lenSize]
  have hne : ¬ Uint16 [h0, h1] = 0 := by omega
  have hfit2 : t.length + 1 + 1 < Uint16 [h0, h1] := by omega
  simp only [chunkedReader.Read, hlen0, hns, if_false, e1']
  simp only [ht, List.length_cons, List.length_nil, List.drop_succ_cons, List.drop_zero, lenSize,
    List.cons_append, List.nil_append, List.take_succ_cons, List.take_zero, hne, if_false,
    hfit2, if_true]

/-- A zero length field: `Read` returns `(0, nil)` and consumes the two bytes. -/
theorem Read_of_end_marker (r : chunkedReader) (b : List Byte) (rest : List Byte)
    (hl : r.leftover = []) (ha : r.allocated) (hc : Source.clean r.Reader)
    (hb : Source.bytes r.Reader = 0 :: 0 :: rest) :
    ∃ r2, r.Read b = some (0, none, b, r2) ∧ r2.leftover = []
      ∧ Source.clean r2.Reader ∧ Source.bytes r2.Reader = rest ∧ r2.allocated := by
  obtain ⟨s1, e1, c1, b1⟩ := ReadFull_clean_ok r.Reader lenSize hc (by simp [hb, lenSize])
  simp only [hb, lenSize, List.take_succ_cons, List.take_zero, List.drop_succ_cons,
    List.drop_zero] at e1 b1
  have e1' : ReadFull r.Reader lenSize = ([0, 0], none, s1) := e1
  obtain ⟨x0, x1, t, ht, hlen⟩ := buf_two_of_allocated r ha
  have hlen0 : ¬ r.leftover.length > 0 := by simp [hl]
  have hns : ¬ r.buf.length < lenSize := by rw [ht]; simp [lenSize]
  simp only [chunkedReader.Read, hlen0, hns, if_false, e1']
  have hz : Uint16 [(0 : Byte), 0] = 0 := rfl
  simp only [ht, List.length_cons, List.length_nil, List.drop_succ_cons, List.drop_zero, lenSize,
    List.cons_append, List.nil_append, List.take_succ_cons, List.take_zero, hz, if_true]
  refine ⟨_, rfl, hl, c1, b1, ?_⟩
  simp only [chunkedReader.allocated, List.length_cons]
  omega

/-- A source exhausted within the length field: `io.EOF` if it had no byte,
`io.ErrUnexpectedEOF` if it had one. -/
theorem Read_of_short_header (r : chunkedReader) (b : List Byte)
    (hl : r.leftover = []) (ha : r.allocated) (hc : Source.clean r.Reader)
    (hb : (Source.bytes r.Reader).length < 2) :
    ∃ r2, r.Read b = some (0,
        some (if (Source.bytes r.Reader).length = 0 then Error.EOF else Error.ErrUnexpectedEOF),
        b, r2) ∧ r2.leftover = [] ∧ r2.Reader = [] ∧ r2.allocated := by
  have e1 := ReadFull_clean_short r.Reader lenSize hc hb
  obtain ⟨x0, x1, t, ht, hlen⟩ := buf_two_of_allocated r ha
  have hlen0 : ¬ r.leftover.length > 0 := by simp [hl]
  have hns : ¬ r.buf.length < lenSize := by rw [ht]; simp [lenSize]
  simp only [chunkedReader.Read, hlen0, hns, if_false, e1]
  refine ⟨_, rfl, hl, rfl, ?_⟩
  simp only [chunkedReader.allocated, ht, List.length_append, List.length_drop, List.length_cons]
  omega

/-- A source exhausted within the payload of a chunk that fits the scratch
buffer: `io.EOF` if it had no payload byte, `io.ErrUnexpectedEOF` otherwise. -/
theorem Read_of_short_payload (r : chunkedReader) (b : List Byte) (h0 h1 : Byte) (q : List Byte)
    (hl : r.leftover = []) (ha : r.allocated) (hc : Source.clean r.Reader)
    (hb : Source.bytes r.Reader = h0 :: h1 :: q)
    (hq : q.length < Uint16 [h0, h1]) (hfit : Uint16 [h0, h1] ≤ lenSize + maxChunkSize) :
    ∃ r2, r.Read b = some (0,
        some (if q.length = 0 then Error.EOF else Error.ErrUnexpectedEOF), b, r2)
      ∧ r2.leftover = [] ∧ r2.Reader = [] ∧ r2.allocated := by
  obtain ⟨s1, e1, c1, b1⟩ := ReadFull_clean_ok r.Reader lenSize hc (by simp [hb, lenSize])
  simp only [hb, lenSize, List.take_succ_cons, List.take_zero, List.drop_succ_cons,
    List.drop_zero] at e1 b1
  have e1' : ReadFull r.Reader lenSize = ([h0, h1], none, s1) := e1
  have e2 := ReadFull_clean_short s1 (Uint16 [h0, h1]) c1 (by rw [b1]; exact hq)
  rw [b1] at e2
  obtain ⟨x0, x1, t, ht, hlen⟩ := buf_two_of_allocated r ha
  have hlen0 : ¬ r.leftover.length > 0 := by simp [hl]
  have hns : ¬ r.buf.length < lenSize := by rw [ht]; simp [lenSize]
  have hne : ¬ Uint16 [h0, h1] = 0 := by omega
  have hfit2 : ¬ (t.length + 1 + 1 < Uint16 [h0, h1]) := by omega
  simp only [chunkedReader.Read, hlen0, hns, if_false, e1']
  simp only [ht, List.length_cons, List.length_nil, List.drop_succ_cons, List.drop_zero, lenSize,
    List.cons_append, List.nil_append, List.take_succ_cons, List.take_zero, hne, if_false,
    hfit2, e2]
  refine ⟨_, rfl, hl, rfl, ?_⟩
  simp only [chunkedReader.allocated, List.length_append, List.length_drop, List.length_cons]
  omega
/-! ### The claims on single reads -/

/-- The constructor allocates the scratch buffer. -/
theorem ChunkedReader_allocated (src : Source) : (ChunkedReader src).allocated := by
  simp [chunkedReader.allocated, ChunkedReader]

/-- A source that serves its bytes in one piece is error-free. -/
theorem clean_singleton (bs : List Byte) : Source.clean [(bs, none)] := by
  intro x hx
  simp only [List.mem_singleton] at hx
  rw [hx]

/-- The bytes of a source with a single script entry. -/
theorem bytes_singleton (bs : List Byte) (e : Option Error) : Source.bytes [(bs, e)] = bs := by
  simp [Source.bytes]

/-- C4 (defect of the code). A source holding a complete chunk of declared length
20000 (prefix `0x4E 0x20`) with its 20000 payload bytes: `Read` on a fresh reader
panics on the slice `r.buf[:len]`, as the scratch buffer has 2 + 16384 bytes, and
returns nothing. -/
theorem chunkedReader_Read_payload_step_crash :
    Uint16 [78, 32] = 20000 ∧ (List.replicate 20000 (0 : Byte)).length = 20000 ∧
    (ChunkedReader [(78 :: 32 :: List.replicate 20000 0, none)]).Read [0, 0, 0, 0] = none :=
  ⟨by decide, List.length_replicate _ _,
    Read_of_oversize _ _ 78 32 (List.replicate 20000 0) rfl (ChunkedReader_allocated _)
      (clean_singleton _) (bytes_singleton _ _) (by decide)⟩

/-- C5. Serving leftover: with a non-empty leftover, `Read(b)` returns `(n, nil)`
with `n = min(len(leftover), len(b))`, puts the first `n` leftover bytes into
`b[0:n]` and leaves the rest of `b` as it was, removes those `n` bytes from the
leftover, and leaves the source untouched. -/
theorem chunkedReader_Read_serves_leftover (r : chunkedReader) (b : List Byte)
    (h : r.leftover ≠ []) :
    ∃ b2 r2, r.Read b = some (min r.leftover.length b.length, none, b2, r2)
      ∧ b2.take (min r.leftover.length b.length) = r.leftover.take (min r.leftover.length b.length)
      ∧ b2.drop (min r.leftover.length b.length) = b.drop (min r.leftover.length b.length)
      ∧ b2.length = b.length
      ∧ r2.leftover = r.leftover.drop (min r.leftover.length b.length)
      ∧ r2.Reader = r.Reader ∧ r2.buf = r.buf := by
  have hm : min r.leftover.length b.length = min b.length r.leftover.length := Nat.min_comm _ _
  have hlen : (r.leftover.take (min b.length r.leftover.length)).length
      = min b.length r.leftover.length := by
    rw [List.length_take]; omega
  refine ⟨r.leftover.take (min b.length r.leftover.length) ++
      b.drop (min b.length r.leftover.length),
    { r with leftover := r.leftover.drop (min b.length r.leftover.length) },
    by rw [hm]; exact Read_of_leftover r b h, ?_, ?_, ?_, ?_, rfl, rfl⟩
  · rw [hm, List.take_left' hlen]
  · rw [hm, List.drop_left' hlen]
  · rw [List.length_append, List.length_drop, hlen]; omega
  · rw [hm]

/-- Witness of C5: the leftover "lo" served into a 3-byte buffer. -/
theorem chunkedReader_Read_serves_leftover_witness :
    ([108, 111] : List Byte) ≠ [] ∧
    ∃ b2 r2, chunkedReader.Read ⟨[([0, 0], none)], [], [108, 111]⟩ [0, 0, 0]
        = some (2, none, b2, r2)
      ∧ b2 = [108, 111, 0] ∧ r2.leftover = [] ∧ r2.Reader = [([0, 0], none)] := by
  obtain ⟨b2, r2, e1, _, _, _, e5, e6, _⟩ :=
    chunkedReader_Read_serves_leftover ⟨[([0, 0], none)], [], [108, 111]⟩ [0, 0, 0] (by decide)
  refine ⟨by decide, b2, r2, e1, ?_, e5, e6⟩
  have e2 : chunkedReader.Read ⟨[([0, 0], none)], [], [108, 111]⟩ [0, 0, 0]
      = some (2, none, [108, 111, 0], ⟨[([0, 0], none)], [], []⟩) := by decide
  rw [e2] at e1
  simp only [Option.some.injEq, Prod.mk.injEq] at e1
  exact e1.2.2.1.symm
/-- C7. End marker distinction: with an empty leftover, if the next two source
bytes are `0x00 0x00` then `Read` returns `(0, nil)`, consumes exactly those two
bytes and leaves the leftover empty; if the source is exhausted before any byte
then `Read` returns `(0, io.EOF)`; so on a source holding exactly one zero-length
chunk the first `Read` returns `(0, nil)` and the second `(0, io.EOF)`. -/
theorem chunkedReader_Read_end_marker (r : chunkedReader) (b : List Byte)
    (hl : r.leftover = []) (ha : r.allocated) (hc : Source.clean r.Reader) :
    (∀ rest, Source.bytes r.Reader = 0 :: 0 :: rest →
      ∃ r2, r.Read b = some (0, none, b, r2) ∧ r2.leftover = []
        ∧ Source.bytes r2.Reader = rest) ∧
    (Source.bytes r.Reader = [] →
      ∃ r2, r.Read b = some (0, some Error.EOF, b, r2) ∧ r2.leftover = []) ∧
    (Source.bytes r.Reader = [0, 0] →
      ∃ r2, r.Read b = some (0, none, b, r2) ∧
        ∀ b2, ∃ r3, r2.Read b2 = some (0, some Error.EOF, b2, r3)) := by
  refine ⟨?_, ?_, ?_⟩
  · intro rest hb
    obtain ⟨r2, e, l2, _, b2, _⟩ := Read_of_end_marker r b rest hl ha hc hb
    exact ⟨r2, e, l2, b2⟩
  · intro hb
    obtain ⟨r2, e, l2, _, _⟩ := Read_of_short_header r b hl ha hc (by simp [hb])
    simp only [hb, List.length_nil, if_true] at e
    exact ⟨r2, e, l2⟩
  · intro hb
    obtain ⟨r2, e, l2, c2, b2, a2⟩ := Read_of_end_marker r b [] hl ha hc hb
    refine ⟨r2, e, ?_⟩
    intro b3
    obtain ⟨r3, e3, _⟩ := Read_of_short_header r2 b3 l2 a2 c2 (by simp [b2])
    simp only [b2, List.length_nil, if_true] at e3
    exact ⟨r3, e3⟩

/-- Witness of C7: a source holding exactly one zero-length chunk. -/
theorem chunkedReader_Read_end_marker_witness :
    (ChunkedReader [([0, 0], none)]).leftover = [] ∧
    (ChunkedReader [([0, 0], none)]).allocated ∧
    Source.clean (ChunkedReader [([0, 0], none)]).Reader ∧
    Source.bytes (ChunkedReader [([0, 0], none)]).Reader = [0, 0] ∧
    ∃ r2, (ChunkedReader [([0, 0], none)]).Read [7, 7, 7] = some (0, none, [7, 7, 7], r2) ∧
      ∀ b2, ∃ r3, r2.Read b2 = some (0, some Error.EOF, b2, r3) :=
  ⟨rfl, ChunkedReader_allocated _, clean_singleton _, bytes_singleton _ _,
    (chunkedReader_Read_end_marker (ChunkedReader [([0, 0], none)]) [7, 7, 7] rfl
      (ChunkedReader_allocated _) (clean_singleton _)).2.2 (bytes_singleton _ _)⟩

/-- C8 (as stated, refuted). A source that supplies the length prefix `0x00 0x05`
and then is exhausted with no payload byte: `Read` returns `(0, io.EOF)`, the very
error it returns on a source that is exhausted before any frame byte. -/
theorem chunkedReader_Read_truncated_payload_counterexample :
    ((ChunkedReader [([0, 5], none)]).Read [0, 0, 0]).map (fun x => (x.1, x.2.1, x.2.2.1))
      = some (0, some Error.EOF, [0, 0, 0]) ∧
    ((ChunkedReader []).Read [0, 0, 0]).map (fun x => (x.1, x.2.1, x.2.2.1))
      = some (0, some Error.EOF, [0, 0, 0]) := by
  obtain ⟨r2, e2, _⟩ := Read_of_short_payload (ChunkedReader [([0, 5], none)]) [0, 0, 0] 0 5 []
    rfl (ChunkedReader_allocated _) (clean_singleton _) (bytes_singleton _ _)
    (by decide) (by decide)
  obtain ⟨r3, e3, _⟩ := Read_of_short_header (ChunkedReader []) [0, 0, 0]
    rfl (ChunkedReader_allocated _) (by intro x hx; cases hx) (by decide)
  rw [e2, e3]
  exact ⟨rfl, rfl⟩

/-- C8 (amended). With an empty leftover, a source that supplies a length prefix
declaring `L` with `1 ≤ L ≤ 2 + 16384` and is exhausted after `k < L` payload
bytes: for `1 ≤ k` `Read` returns zero bytes and `io.ErrUnexpectedEOF`, which is
not `io.EOF`; for `k = 0` it returns zero bytes and `io.EOF`. -/
theorem chunkedReader_Read_truncated_payload (r : chunkedReader) (b : List Byte)
    (h0 h1 : Byte) (q : List Byte)
    (hl : r.leftover = []) (ha : r.allocated) (hc : Source.clean r.Reader)
    (hb : Source.bytes r.Reader = h0 :: h1 :: q)
    (hq : q.length < Uint16 [h0, h1]) (hfit : Uint16 [h0, h1] ≤ lenSize + maxChunkSize) :
    (1 ≤ q.length →
      (∃ r2, r.Read b = some (0, some Error.ErrUnexpectedEOF, b, r2) ∧ r2.leftover = [])
        ∧ Error.ErrUnexpectedEOF ≠ Error.EOF) ∧
    (q.length = 0 →
      ∃ r2, r.Read b = some (0, some Error.EOF, b, r2) ∧ r2.leftover = []) := by
  obtain ⟨r2, e, l2, _⟩ := Read_of_short_payload r b h0 h1 q hl ha hc hb hq hfit
  constructor
  · intro hk
    have hne : ¬ q.length = 0 := by omega
    simp only [hne, if_false] at e
    exact ⟨⟨r2, e, l2⟩, by decide⟩
  · intro hk
    simp only [hk, if_true] at e
    exact ⟨r2, e, l2⟩

/-- Witness of C8 (amended): the prefix `0x00 0x05` followed by "he" only. -/
theorem chunkedReader_Read_truncated_payload_witness :
    (ChunkedReader [([0, 5, 104, 101], none)]).leftover = [] ∧
    (ChunkedReader [([0, 5, 104, 101], none)]).allocated ∧
    Source.clean (ChunkedReader [([0, 5, 104, 101], none)]).Reader ∧
    Source.bytes (ChunkedReader [([0, 5, 104, 101], none)]).Reader = 0 :: 5 :: [104, 101] ∧
    ([104, 101] : List Byte).length < Uint16 [0, 5] ∧
    Uint16 [0, 5] ≤ lenSize + maxChunkSize ∧
    1 ≤ ([104, 101] : List Byte).length ∧
    ∃ r2, (ChunkedReader [([0, 5, 104, 101], none)]).Read [0, 0, 0]
        = some (0, some Error.ErrUnexpectedEOF, [0, 0, 0], r2) ∧ r2.leftover = [] :=
  ⟨rfl, ChunkedReader_allocated _, clean_singleton _, bytes_singleton _ _, by decide, by decide,
    by decide,
    ((chunkedReader_Read_truncated_payload (ChunkedReader [([0, 5, 104, 101], none)]) [0, 0, 0]
      0 5 [104, 101] rfl (ChunkedReader_allocated _) (clean_singleton _) (bytes_singleton _ _)
      (by decide) (by decide)).1 (by decide)).1⟩

/-- C9. Truncated length prefix: with an empty leftover, a source that supplies
exactly one byte and then is exhausted makes `Read` return zero bytes and
`io.ErrUnexpectedEOF`, which is distinct from the `io.EOF` it returns when the
source is exhausted with no byte read. -/
theorem chunkedReader_Read_truncated_length (r : chunkedReader) (b : List Byte)
    (hl : r.leftover = []) (ha : r.allocated) (hc : Source.clean r.Reader) :
    (∀ x, Source.bytes r.Reader = [x] →
      ∃ r2, r.Read b = some (0, some Error.ErrUnexpectedEOF, b, r2) ∧ r2.leftover = []) ∧
    (Source.bytes r.Reader = [] →
      ∃ r2, r.Read b = some (0, some Error.EOF, b, r2) ∧ r2.leftover = []) ∧
    Error.ErrUnexpectedEOF ≠ Error.EOF := by
  refine ⟨?_, ?_, by decide⟩
  · intro x hb
    obtain ⟨r2, e, l2, _⟩ := Read_of_short_header r b hl ha hc (by simp [hb])
    simp only [hb, List.length_singleton, one_ne_zero, if_false] at e
    exact ⟨r2, e, l2⟩
  · intro hb
    obtain ⟨r2, e, l2, _⟩ := Read_of_short_header r b hl ha hc (by simp [hb])
    simp only [hb, List.length_nil, if_true] at e
    exact ⟨r2, e, l2⟩

/-- Witness of C9: a source that supplies the single byte `0x00`, and one that
supplies none. -/
theorem chunkedReader_Read_truncated_length_witness :
    (ChunkedReader [([0], none)]).leftover = [] ∧
    (ChunkedReader [([0], none)]).allocated ∧
    Source.clean (ChunkedReader [([0], none)]).Reader ∧
    Source.bytes (ChunkedReader [([0], none)]).Reader = [0] ∧
    (∃ r2, (ChunkedReader [([0], none)]).Read [0, 0, 0]
        = some (0, some Error.ErrUnexpectedEOF, [0, 0, 0], r2) ∧ r2.leftover = []) ∧
    (∃ r2, (ChunkedReader []).Read [0, 0, 0]
        = some (0, some Error.EOF, [0, 0, 0], r2) ∧ r2.leftover = []) :=
  ⟨rfl, ChunkedReader_allocated _, clean_singleton _, bytes_singleton _ _,
    (chunkedReader_Read_truncated_length (ChunkedReader [([0], none)]) [0, 0, 0] rfl
      (ChunkedReader_allocated _) (clean_singleton _)).1 0 (bytes_singleton _ _),
    (chunkedReader_Read_truncated_length (ChunkedReader []) [0, 0, 0] rfl
      (ChunkedReader_allocated _) (by intro x hx; cases hx)).2.1 rfl⟩

/-- C10 (defect of the code). A chunk of declared length 16387 (prefix
`0x40 0x03`), which the 2-byte prefix can encode, followed by its 16387 payload
bytes: `Read` on a fresh reader, whatever the caller buffer, panics on the slice
`r.buf[:len]` of the scratch buffer of 2 + 16384 bytes and returns nothing. -/
theorem chunkedReader_Read_oversize_crash (b : List Byte) :
    Uint16 [64, 3] = 16387 ∧ (List.replicate 16387 (0 : Byte)).length = 16387 ∧
    (ChunkedReader []).buf.length = 2 + 16384 ∧
    (ChunkedReader [(64 :: 3 :: List.replicate 16387 0, none)]).Read b = none :=
  ⟨by decide, List.length_replicate _ _, ChunkedReader_allocated _,
    Read_of_oversize _ _ 64 3 (List.replicate 16387 0) rfl (ChunkedReader_allocated _)
      (clean_singleton _) (bytes_singleton _ _) (by decide)⟩
/-! ### Runs of reads and the round trip -/

/-- The bytes `b[:n]` after `n = copy(b, x)` are the first `len(b)` bytes of `x`. -/
theorem take_copy (b x : List Byte) :
    (x.take (min b.length x.length) ++ b.drop (min b.length x.length)).take
      (min b.length x.length) = x.take b.length := by
  have hlen : (x.take (min b.length x.length)).length = min b.length x.length := by
    rw [List.length_take]; omega
  rw [List.take_left' hlen, List.take_eq_take]
  omega

/-- First step of a run of reads with a non-empty leftover. -/
theorem readAll_leftover (s : Nat) (sizes : List Nat) (r : chunkedReader)
    (h : r.leftover ≠ []) :
    readAll (s :: sizes) r =
      (r.leftover.take s ++
          (readAll sizes { r with leftover := r.leftover.drop (min s r.leftover.length) }).1,
        (readAll sizes { r with leftover := r.leftover.drop (min s r.leftover.length) }).2.1,
        (readAll sizes { r with leftover := r.leftover.drop (min s r.leftover.length) }).2.2) := by
  have e := Read_of_leftover r (List.replicate s 0) h
  simp only [List.length_replicate] at e
  simp only [readAll, e]
  have := take_copy (List.replicate s 0) r.leftover
  simp only [List.length_replicate] at this
  rw [this]

/-- First step of a run of reads at the length field of a complete chunk that
fits the scratch buffer. -/
theorem readAll_chunk (s : Nat) (sizes : List Nat) (r : chunkedReader) (h0 h1 : Byte)
    (p rest : List Byte)
    (hl : r.leftover = []) (ha : r.allocated) (hc : Source.clean r.Reader)
    (hb : Source.bytes r.Reader = h0 :: h1 :: (p ++ rest))
    (hL : Uint16 [h0, h1] = p.length) (hpos : 1 ≤ p.length)
    (hfit : p.length ≤ lenSize + maxChunkSize) :
    ∃ r2, readAll (s :: sizes) r =
        (p.take s ++ (readAll sizes r2).1, (readAll sizes r2).2.1, (readAll sizes r2).2.2)
      ∧ r2.leftover = p.drop (min s p.length)
      ∧ Source.clean r2.Reader ∧ Source.bytes r2.Reader = rest ∧ r2.allocated := by
  obtain ⟨r2, e, l2, c2, b2, a2⟩ :=
    Read_of_chunk r (List.replicate s 0) h0 h1 p rest hl ha hc hb hL hpos hfit
  simp only [List.length_replicate] at e l2
  refine ⟨r2, ?_, l2, c2, b2, a2⟩
  simp only [readAll, e]
  have := take_copy (List.replicate s 0) p
  simp only [List.length_replicate] at this
  rw [this]

/-- A run of reads on an exhausted source ends at once on `io.EOF`. -/
theorem readAll_exhausted (s : Nat) (sizes : List Nat) (r : chunkedReader)
    (hl : r.leftover = []) (ha : r.allocated) (hc : Source.clean r.Reader)
    (hb : Source.bytes r.Reader = []) :
    (readAll (s :: sizes) r).1 = [] ∧ (readAll (s :: sizes) r).2.1 = Stop.eof := by
  obtain ⟨r2, e, _⟩ := Read_of_short_header r (List.replicate s 0) hl ha hc (by simp [hb])
  simp only [hb, List.length_nil, if_true] at e
  simp [readAll, e]

/-- Wire bytes of a chunk sequence, chunk by chunk. -/
theorem encode_cons (p : List Byte) (ps : List (List Byte)) :
    encode (p :: ps) = PutUint16 p.length ++ (p ++ encode ps) := by
  simp [encode]

/-- A run of reads over the wire bytes of chunks that fit the scratch buffer
returns a beginning of the leftover followed by the payloads, ends on `io.EOF`
or for want of buffers, returns everything when it ends on `io.EOF`, and does so
once it has more non-empty buffers than there are bytes. -/
theorem readAll_encode (sizes : List Nat) : ∀ (r : chunkedReader) (ps : List (List Byte)),
    r.allocated → Source.clean r.Reader → Source.bytes r.Reader = encode ps →
    (∀ p ∈ ps, 1 ≤ p.length ∧ p.length ≤ lenSize + maxChunkSize) →
    (readAll sizes r).1 <+: r.leftover ++ ps.flatten ∧
    ((readAll sizes r).2.1 = Stop.eof ∨ (readAll sizes r).2.1 = Stop.pending) ∧
    ((readAll sizes r).2.1 = Stop.eof → (readAll sizes r).1 = r.leftover ++ ps.flatten) ∧
    ((∀ s ∈ sizes, 1 ≤ s) → (r.leftover ++ ps.flatten).length < sizes.length →
      (readAll sizes r).2.1 = Stop.eof) := by
  induction sizes with
  | nil =>
    intro r ps _ _ _ _
    refine ⟨by simp [readAll], by simp [readAll], by simp [readAll], ?_⟩
    intro _ h
    simp at h
  | cons s sizes ih =>
    intro r ps ha hc hb hps
    by_cases hl : r.leftover = []
    · cases ps with
      | nil =>
        obtain ⟨e1, e2⟩ := readAll_exhausted s sizes r hl ha hc (by simpa [encode] using hb)
        rw [e1, e2, hl]
        simp
      | cons p ps =>
        obtain ⟨hp1, hp2⟩ := hps p (by simp)
        have hlt : p.length < 65536 := by
          have : lenSize + maxChunkSize = 16386 := rfl
          omega
        have hU : Uint16 (PutUint16 p.length) = p.length := by
          have := Uint16_PutUint16 p.length []
          simp only [List.append_nil] at this
          rw [this]; omega
        rw [encode_cons] at hb
        obtain ⟨r2, e, l2, c2, b2, a2⟩ := readAll_chunk s sizes r
          (Fin.ofNat ((p.length % 2 ^ 16) / 256)) (Fin.ofNat (p.length % 2 ^ 16)) p (encode ps)
          hl ha hc hb hU hp1 hp2
        obtain ⟨i1, i2, i3, i4⟩ := ih r2 ps a2 c2 b2 (fun q hq => hps q (by simp [hq]))
        rw [l2] at i1 i3 i4
        have hsplit : p.take s ++ p.drop (min s p.length) = p := by
          have : p.drop (min s p.length) = p.drop s := by
            by_cases hs : s ≤ p.length
            · rw [Nat.min_eq_left hs]
            · rw [Nat.min_eq_right (by omega), List.drop_of_length_le (le_refl _),
                List.drop_of_length_le (by omega)]
          rw [this, List.take_append_drop]
        have hrem : r.leftover ++ (p :: ps).flatten
            = p.take s ++ (p.drop (min s p.length) ++ ps.flatten) := by
          rw [hl, ← List.append_assoc, hsplit]; simp
        rw [e, hrem]
        refine ⟨(List.prefix_append_right_inj _).mpr i1, i2, ?_, ?_⟩
        · intro h
          rw [i3 h]
        · intro hs hlen
          apply i4 (fun x hx => hs x (by simp [hx]))
          have h1s : 1 ≤ s := hs s (by simp)
          simp only [List.length_append, List.length_take, List.length_drop,
            List.length_cons] at hlen ⊢
          omega
    · have e := readAll_leftover s sizes r hl
      have a2 : chunkedReader.allocated
          { r with leftover := r.leftover.drop (min s r.leftover.length) } := ha
      obtain ⟨i1, i2, i3, i4⟩ := ih
        { r with leftover := r.leftover.drop (min s r.leftover.length) } ps a2 hc hb hps
      simp only at i1 i3 i4
      have hsplit : r.leftover.take s ++ r.leftover.drop (min s r.leftover.length)
          = r.leftover := by
        have : r.leftover.drop (min s r.leftover.length) = r.leftover.drop s := by
          by_cases hs : s ≤ r.leftover.length
          · rw [Nat.min_eq_left hs]
          · rw [Nat.min_eq_right (by omega), List.drop_of_length_le (le_refl _),
              List.drop_of_length_le (by omega)]
        rw [this, List.take_append_drop]
      have hrem : r.leftover ++ ps.flatten
          = r.leftover.take s ++ (r.leftover.drop (min s r.leftover.length) ++ ps.flatten) := by
        rw [← List.append_assoc, hsplit]
      have hpos : 0 < r.leftover.length := List.length_pos.mpr hl
      rw [e, hrem]
      refine ⟨(List.prefix_append_right_inj _).mpr i1, i2, ?_, ?_⟩
      · intro h
        rw [i3 h]
      · intro hs hlen
        apply i4 (fun x hx => hs x (by simp [hx]))
        have h1s : 1 ≤ s := hs s (by simp)
        simp only [List.length_append, List.length_take, List.length_drop,
          List.length_cons] at hlen ⊢
        omega
/-- The frames of an input are the wire bytes of chunks of 1 to 8192 bytes whose
payloads make up the input. -/
theorem frames_encode : ∀ (n : Nat) (b : List Byte), b.length = n →
    ∃ ps : List (List Byte), (frames b).flatten = encode ps ∧ ps.flatten = b
      ∧ ∀ p ∈ ps, 1 ≤ p.length ∧ p.length ≤ 8192 := by
  intro n
  induction n using Nat.strong_induction_on with
  | _ n ih =>
    intro b hn
    by_cases hb : b = []
    · subst hb
      exact ⟨[], by simp [frames_nil, encode], rfl, by simp⟩
    · have hpos : 0 < b.length := List.length_pos.mpr hb
      obtain ⟨ps, h1, h2, h3⟩ := ih (b.drop 8192).length
        (by rw [List.length_drop]; omega) (b.drop 8192) rfl
      have hlt : (b.take 8192).length < 65536 :=
        lt_of_le_of_lt (List.length_take_le _ _) (by decide)
      refine ⟨b.take 8192 :: ps, ?_, ?_, ?_⟩
      · rw [frames_cons b hb, encode_cons, List.flatten_cons, h1,
          PutUint16_eq_bigEndian16 _ hlt, List.append_assoc]
      · rw [List.flatten_cons, h2, List.take_append_drop]
      · intro p hp
        simp only [List.mem_cons] at hp
        rcases hp with hp | hp
        · subst hp
          rw [List.length_take]
          omega
        · exact h3 p hp

/-- C1. Round trip: on a sink that never fails and has received nothing yet, with
fuel for the `ceil(k/8192) + 1` iterations of the loop, `Write(data)` succeeds; and
for every source that serves the bytes the sink received, however it splits them
over its reads, and every sequence of caller buffer sizes, the bytes returned by
the successive `Read` calls of a fresh reader are a beginning of `data`, no call
fails other than by `io.EOF`, the bytes returned up to the call that reports
`io.EOF` are exactly `data`, and that call comes once `len(data) + 1` reads with
non-empty buffers have been made. -/
theorem chunked_round_trip (fuel : Nat) (w : chunkedWriter) (data : List Byte)
    (hw : w.Writer.neverFails) (h0 : w.Writer.writes = [])
    (hf : chunkCount data.length + 1 ≤ fuel) :
    ∃ w2, chunkedWriter.Write fuel w data = some (data.length, none, w2) ∧
      ∀ (src : Source), Source.clean src → Source.bytes src = w2.Writer.received →
        ∀ (sizes : List Nat),
          (readAll sizes (ChunkedReader src)).1 <+: data ∧
          ((readAll sizes (ChunkedReader src)).2.1 = Stop.eof ∨
            (readAll sizes (ChunkedReader src)).2.1 = Stop.pending) ∧
          ((readAll sizes (ChunkedReader src)).2.1 = Stop.eof →
            (readAll sizes (ChunkedReader src)).1 = data) ∧
          ((∀ s ∈ sizes, 1 ≤ s) → data.length < sizes.length →
            (readAll sizes (ChunkedReader src)).2.1 = Stop.eof) := by
  obtain ⟨w2, e1, e2, _⟩ := Write_on_good_sink fuel w data hw hf
  refine ⟨w2, e1, ?_⟩
  intro src hc hb sizes
  obtain ⟨ps, p1, p2, p3⟩ := frames_encode data.length data rfl
  have hrec : w2.Writer.received = encode ps := by
    rw [Sink.received, e2, h0, List.nil_append, p1]
  have := readAll_encode sizes (ChunkedReader src) ps (ChunkedReader_allocated _) hc
    (by rw [← hrec]; exact hb)
    (fun p hp => ⟨(p3 p hp).1, le_trans (p3 p hp).2 (by decide)⟩)
  simpa [ChunkedReader, p2] using this
/-- Witness of C1: "hello" written to a fresh sink and read back with 3-byte
buffers from a source that serves the received bytes in one piece. -/
theorem chunked_round_trip_witness :
    (ChunkedWriter ⟨[], []⟩).Writer.neverFails ∧
    (ChunkedWriter ⟨[], []⟩).Writer.writes = [] ∧
    chunkCount ([104, 101, 108, 108, 111] : List Byte).length + 1 ≤ 2 ∧
    ∃ w2, chunkedWriter.Write 2 (ChunkedWriter ⟨[], []⟩) [104, 101, 108, 108, 111]
        = some (5, none, w2) ∧
      (readAll [3, 3, 3, 3, 3, 3] (ChunkedReader [(w2.Writer.received, none)])).1
        = [104, 101, 108, 108, 111] ∧
      (readAll [3, 3, 3, 3, 3, 3] (ChunkedReader [(w2.Writer.received, none)])).2.1
        = Stop.eof := by
  have h1 : (ChunkedWriter ⟨[], []⟩).Writer.neverFails := by
    intro e he; simp [ChunkedWriter] at he
  have h2 : chunkCount ([104, 101, 108, 108, 111] : List Byte).length + 1 ≤ 2 := by decide
  obtain ⟨w2, e1, e2⟩ :=
    chunked_round_trip 2 (ChunkedWriter ⟨[], []⟩) [104, 101, 108, 108, 111] h1 rfl h2
  obtain ⟨_, _, i3, i4⟩ := e2 [(w2.Writer.received, none)] (clean_singleton _)
    (bytes_singleton _ _) [3, 3, 3, 3, 3, 3]
  have heof := i4 (by decide) (by decide)
  exact ⟨h1, rfl, h2, w2, e1, i3 heof, heof⟩

/-- A run of reads that the leftover outlasts (all its buffers but the last hold
fewer bytes than the leftover) returns the first bytes of the leftover and does
not touch the source. -/
theorem readAll_serving (sizes : List Nat) : ∀ (r : chunkedReader),
    (sizes = [] ∨ sizes.dropLast.sum < r.leftover.length) →
    readAll sizes r = (r.leftover.take sizes.sum, Stop.pending,
      some { r with leftover := r.leftover.drop sizes.sum }) := by
  induction sizes with
  | nil => intro r _; simp [readAll]
  | cons s sizes ih =>
    intro r h
    have hlo : 0 < r.leftover.length := by
      rcases h with h | h
      · exact absurd h (by simp)
      · omega
    rw [readAll_leftover s sizes r (List.length_pos.mp hlo)]
    by_cases hs : sizes = []
    · subst hs
      simp only [readAll, List.append_nil, List.sum_cons, List.sum_nil, Nat.add_zero]
      by_cases hle : s ≤ r.leftover.length
      · rw [Nat.min_eq_left hle]
      · rw [Nat.min_eq_right (by omega), List.drop_of_length_le (le_refl _),
          List.drop_of_length_le (by omega)]
    · have hd : (s :: sizes).dropLast = s :: sizes.dropLast := by
        cases sizes with
        | nil => exact absurd rfl hs
        | cons _ _ => rfl
      have hsum : s + sizes.dropLast.sum < r.leftover.length := by
        rcases h with h | h
        · exact absurd h (by simp)
        · rw [hd, List.sum_cons] at h; exact h
      have hm : min s r.leftover.length = s := Nat.min_eq_left (by omega)
      rw [hm, ih { r with leftover := r.leftover.drop s }
        (Or.inr (by simp only [List.length_drop]; omega))]
      simp only [List.sum_cons, List.drop_drop, Prod.mk.injEq, and_true, true_and]
      rw [List.take_add]

/-- A run of reads that starts at the length field of a complete chunk which fits
the scratch buffer, and which the payload outlasts: the reads return the first
bytes of the payload in order, the rest of it is the leftover, and the source has
lost exactly the chunk. -/
theorem readAll_of_chunk (s : Nat) (sizes : List Nat) (r : chunkedReader) (h0 h1 : Byte)
    (p rest : List Byte)
    (hl : r.leftover = []) (ha : r.allocated) (hc : Source.clean r.Reader)
    (hb : Source.bytes r.Reader = h0 :: h1 :: (p ++ rest))
    (hL : Uint16 [h0, h1] = p.length) (hpos : 1 ≤ p.length)
    (hfit : p.length ≤ lenSize + maxChunkSize)
    (hsum : (s :: sizes).dropLast.sum < p.length) :
    (readAll (s :: sizes) r).1 = p.take (s :: sizes).sum ∧
    (readAll (s :: sizes) r).2.1 = Stop.pending ∧
    ∃ r3, (readAll (s :: sizes) r).2.2 = some r3 ∧
      r3.leftover = p.drop (s :: sizes).sum ∧ Source.bytes r3.Reader = rest := by
  obtain ⟨r2, e, l2, c2, b2, a2⟩ := readAll_chunk s sizes r h0 h1 p rest hl ha hc hb hL hpos hfit
  by_cases hs : sizes = []
  · subst hs
    rw [e]
    have hdrop : p.drop (min s p.length) = p.drop s := by
      by_cases hle : s ≤ p.length
      · rw [Nat.min_eq_left hle]
      · rw [Nat.min_eq_right (by omega), List.drop_of_length_le (le_refl _),
          List.drop_of_length_le (by omega)]
    simp only [readAll, List.append_nil, List.sum_cons, List.sum_nil, Nat.add_zero, true_and]
    exact ⟨r2, rfl, by rw [l2, hdrop], b2⟩
  · have hd : (s :: sizes).dropLast = s :: sizes.dropLast := by
      cases sizes with
      | nil => exact absurd rfl hs
      | cons _ _ => rfl
    rw [hd, List.sum_cons] at hsum
    have hm : min s p.length = s := Nat.min_eq_left (by omega)
    rw [hm] at l2
    have e3 := readAll_serving sizes r2 (Or.inr (by rw [l2, List.length_drop]; omega))
    rw [e, e3, l2]
    simp only [List.sum_cons, List.drop_drop, true_and]
    refine ⟨by rw [List.take_add], _, rfl, rfl, b2⟩

/-- A run of reads whose first `Read` panics delivers no byte and ends there,
with no reader afterwards. -/
theorem readAll_crash (s : Nat) (sizes : List Nat) (r : chunkedReader)
    (e : r.Read (List.replicate s 0) = none) :
    readAll (s :: sizes) r = ([], Stop.crashed, none) := by
  simp only [readAll, e]

/-- C6 (defect of the code). A chunk of declared length 65535 (prefix
`0xFF 0xFF`) followed by its 65535 payload bytes, read with 3-byte buffers: the
first `Read` panics on the slice `r.buf[:len]` of the scratch buffer of 2 + 16384
bytes, so the run of reads ends in that panic and has delivered no byte of the
payload. -/
theorem chunkedReader_Read_chunk_drain_crash :
    Uint16 [255, 255] = 65535 ∧ (List.replicate 65535 (1 : Byte)).length = 65535 ∧
    (readAll [3, 3] (ChunkedReader [(255 :: 255 :: List.replicate 65535 1, none)])).1 = [] ∧
    (readAll [3, 3] (ChunkedReader [(255 :: 255 :: List.replicate 65535 1, none)])).2.1
      = Stop.crashed :=
  ⟨by decide, List.length_replicate _ _,
    congrArg Prod.fst (readAll_crash 3 [3] _
      (Read_of_oversize (ChunkedReader [(255 :: 255 :: List.replicate 65535 1, none)])
        (List.replicate 3 0) 255 255 (List.replicate 65535 1) rfl (ChunkedReader_allocated _)
        (clean_singleton _) (bytes_singleton _ _) (by decide))),
    congrArg (fun x => x.2.1) (readAll_crash 3 [3] _
      (Read_of_oversize (ChunkedReader [(255 :: 255 :: List.replicate 65535 1, none)])
        (List.replicate 3 0) 255 255 (List.replicate 65535 1) rfl (ChunkedReader_allocated _)
        (clean_singleton _) (bytes_singleton _ _) (by decide)))⟩

/-! ### `io.ReadFull` on any scripted source -/

/-- The loop of `io.ReadAtLeast` never holds more than `want` bytes. -/
theorem readLoop_length_le (want : Nat) : ∀ (src : Source) (acc : List Byte),
    acc.length ≤ want → (readLoop want src acc).1.length ≤ want := by
  intro src
  induction src with
  | nil =>
    intro acc h
    simp only [readLoop]
    split <;> exact h
  | cons x rest ih =>
    obtain ⟨bs, e⟩ := x
    intro acc h
    simp only [readLoop]
    split
    · split
      · cases e with
        | none => exact ih (acc ++ bs) (by simp; omega)
        | some err => simp; omega
      · simp [List.length_take]; omega
    · exact h

/-- The loop of `io.ReadAtLeast` ends without an error only with `want` bytes. -/
theorem readLoop_none (want : Nat) : ∀ (src : Source) (acc : List Byte),
    (readLoop want src acc).2.1 = none → want ≤ (readLoop want src acc).1.length := by
  intro src
  induction src with
  | nil =>
    intro acc h
    simp only [readLoop] at h ⊢
    split
    · rename_i hlt; simp [hlt] at h
    · simp only; omega
  | cons x rest ih =>
    obtain ⟨bs, e⟩ := x
    intro acc h
    simp only [readLoop] at h ⊢
    split
    · rename_i hlt
      simp only [hlt, if_true] at h
      split
      · rename_i hle
        simp only [hle, if_true] at h
        cases e with
        | none => exact ih (acc ++ bs) h
        | some err => simp at h
      · simp [List.length_take]; omega
    · simp only; omega

/-- When `io.ReadFull` returns a nil error it has read exactly `len` bytes. -/
theorem ReadFull_none_length (src : Source) (len : Nat)
    (h : (ReadFull src len).2.1 = none) : (ReadFull src len).1.length = len := by
  have h1 := readLoop_length_le len src [] (by simp)
  have h2 := readLoop_none len src []
  unfold ReadFull at h ⊢
  simp only at h ⊢
  split
  · rename_i hge; simp only; omega
  · rename_i hge
    simp only [hge, if_false] at h
    split
    · rename_i hc; simp [hc] at h
    · rename_i hc
      simp only [hc, if_false] at h
      have := h2 h
      omega

/-- C18. Errors deliver no bytes: whenever `Read` returns a non-nil error, the
count is 0, the caller buffer is as it was, the leftover is empty afterwards, and
it was empty before the call. -/
theorem chunkedReader_Read_error_no_bytes (r : chunkedReader) (b : List Byte)
    (n : Nat) (e : Error) (b2 : List Byte) (r2 : chunkedReader)
    (h : r.Read b = some (n, some e, b2, r2)) :
    n = 0 ∧ r2.leftover = [] ∧ r.leftover = [] ∧ b2 = b := by
  unfold chunkedReader.Read at h
  by_cases hl : r.leftover.length > 0
  · simp [hl] at h
  · have hnil : r.leftover = [] := by
      cases hr : r.leftover with
      | nil => rfl
      | cons a t => rw [hr] at hl; simp at hl
    simp only [hl, if_false] at h
    split at h
    · exact absurd h (by simp)
    · split at h
      · simp only [Option.some.injEq, Prod.mk.injEq] at h
        obtain ⟨h1, _, h3, h4⟩ := h
        exact ⟨h1.symm, by rw [← h4]; exact hnil, hnil, h3.symm⟩
      · split at h
        · simp at h
        · split at h
          · exact absurd h (by simp)
          · split at h
            · simp only [Option.some.injEq, Prod.mk.injEq] at h
              obtain ⟨h1, _, h3, h4⟩ := h
              exact ⟨h1.symm, by rw [← h4]; exact hnil, hnil, h3.symm⟩
            · simp at h

/-- Witness of C18: a source exhausted after one byte of the length field. -/
theorem chunkedReader_Read_error_no_bytes_witness :
    ∃ r2, (ChunkedReader [([0], none)]).Read [7, 7, 7]
        = some (0, some Error.ErrUnexpectedEOF, [7, 7, 7], r2) ∧
      (0 = 0 ∧ r2.leftover = [] ∧ (ChunkedReader [([0], none)]).leftover = []
        ∧ ([7, 7, 7] : List Byte) = [7, 7, 7]) := by
  obtain ⟨r2, e, _⟩ := Read_of_short_header (ChunkedReader [([0], none)]) [7, 7, 7] rfl
    (ChunkedReader_allocated _) (clean_singleton _) (by decide)
  have e2 : (ChunkedReader [([0], none)]).Read [7, 7, 7]
      = some (0, some Error.ErrUnexpectedEOF, [7, 7, 7], r2) := e
  exact ⟨r2, e2, chunkedReader_Read_error_no_bytes _ _ _ _ _ _ e2⟩

/-- The length field as `Read` decodes it from the scratch buffer is the one
`io.ReadFull` has just read. -/
theorem header_in_buf (src : Source) (buf : List Byte)
    (h : (ReadFull src lenSize).2.1 = none) :
    ((ReadFull src lenSize).1 ++ buf.drop (ReadFull src lenSize).1.length).take lenSize
      = (ReadFull src lenSize).1 :=
  List.take_left' (ReadFull_none_length src lenSize h)

/-- C17. Meaning of a zero-byte, no-error read: with a caller buffer of at least
one byte, `Read` returns `(0, nil)` if and only if the leftover was empty and the
two bytes that `io.ReadFull` obtained from the source for the length field decode
to 0; so a length field that decodes to a positive length never gives `(0, nil)`.
On a source that serves its bytes without an error this says that the next two
bytes of the source are `0x00 0x00`. -/
theorem chunkedReader_Read_zero_nil_iff (r : chunkedReader) (b : List Byte)
    (ha : r.allocated) (hb : 1 ≤ b.length) :
    ((∃ b2 r2, r.Read b = some (0, none, b2, r2)) ↔
      (r.leftover = [] ∧ (ReadFull r.Reader lenSize).2.1 = none
        ∧ Uint16 (ReadFull r.Reader lenSize).1 = 0)) ∧
    (r.leftover = [] → (ReadFull r.Reader lenSize).2.1 = none →
      1 ≤ Uint16 (ReadFull r.Reader lenSize).1 →
      ¬ ∃ b2 r2, r.Read b = some (0, none, b2, r2)) ∧
    (Source.clean r.Reader →
      ((∃ b2 r2, r.Read b = some (0, none, b2, r2)) ↔
        (r.leftover = [] ∧ ∃ rest, Source.bytes r.Reader = 0 :: 0 :: rest))) := by
  have hbuf : ¬ r.buf.length < lenSize := by
    unfold chunkedReader.allocated at ha
    rw [ha]; decide
  have main : (∃ b2 r2, r.Read b = some (0, none, b2, r2)) ↔
      (r.leftover = [] ∧ (ReadFull r.Reader lenSize).2.1 = none
        ∧ Uint16 (ReadFull r.Reader lenSize).1 = 0) := by
    constructor
    · rintro ⟨b2, r2, h⟩
      by_cases hl : r.leftover = []
      · have hl0 : ¬ r.leftover.length > 0 := by simp [hl]
        unfold chunkedReader.Read at h
        simp only [hl0, hbuf, if_false] at h
        cases hh : (ReadFull r.Reader lenSize).2.1 with
        | some e => simp [hh] at h
        | none =>
          simp only [hh, header_in_buf r.Reader r.buf hh] at h
          by_cases hz : Uint16 (ReadFull r.Reader lenSize).1 = 0
          · exact ⟨hl, rfl, hz⟩
          · exfalso
            simp only [hz, if_false] at h
            split at h
            · exact absurd h (by simp)
            · split at h
              · simp at h
              · rename_i hp
                have hplen := ReadFull_none_length _ _ hp
                simp only [Option.some.injEq, Prod.mk.injEq, copy] at h
                have h1 := h.1
                rw [List.length_take, List.length_append, hplen] at h1
                omega
      · exfalso
        rw [Read_of_leftover r b hl] at h
        simp only [Option.some.injEq, Prod.mk.injEq] at h
        have hpos : 0 < r.leftover.length := List.length_pos.mpr hl
        have h1 := h.1
        omega
    · rintro ⟨hl, hh, hz⟩
      have hl0 : ¬ r.leftover.length > 0 := by simp [hl]
      refine ⟨b, chunkedReader.mk (ReadFull r.Reader lenSize).2.2
        ((ReadFull r.Reader lenSize).1 ++ r.buf.drop (ReadFull r.Reader lenSize).1.length)
        r.leftover, ?_⟩
      unfold chunkedReader.Read
      simp only [hl0, hbuf, if_false, hh, header_in_buf r.Reader r.buf hh, hz, if_true]
  refine ⟨main, ?_, ?_⟩
  · intro hl hh hpos hex
    have := (main.mp hex).2.2
    omega
  · intro hc
    rw [main]
    constructor
    · rintro ⟨hl, hh, hz⟩
      refine ⟨hl, ?_⟩
      by_cases hlen : (Source.bytes r.Reader).length < lenSize
      · rw [ReadFull_clean_short r.Reader lenSize hc hlen] at hh
        simp at hh
      · obtain ⟨s2, e, _, _⟩ := ReadFull_clean_ok r.Reader lenSize hc (by omega)
        rw [e] at hz
        simp only at hz
        match hbs : Source.bytes r.Reader with
        | [] => rw [hbs] at hlen; simp [lenSize] at hlen
        | [_] => rw [hbs] at hlen; simp [lenSize] at hlen
        | h0 :: h1 :: rest =>
          rw [hbs] at hz
          simp only [lenSize, List.take_succ_cons, List.take_zero, Uint16] at hz
          have e0 : h0 = 0 := Fin.ext (by simp; omega)
          have e1 : h1 = 0 := Fin.ext (by simp; omega)
          exact ⟨rest, by rw [e0, e1]⟩
    · rintro ⟨hl, rest, hbs⟩
      obtain ⟨s2, e, _, _⟩ := ReadFull_clean_ok r.Reader lenSize hc (by rw [hbs]; simp [lenSize])
      rw [e]
      refine ⟨hl, rfl, ?_⟩
      rw [hbs]
      rfl

/-- Witness of C17: a zero length field gives `(0, nil)`, the chunk "hello" does
not. -/
theorem chunkedReader_Read_zero_nil_iff_witness :
    (ChunkedReader [([0, 0], none)]).allocated ∧ 1 ≤ ([7, 7, 7] : List Byte).length ∧
    (∃ b2 r2, (ChunkedReader [([0, 0], none)]).Read [7, 7, 7] = some (0, none, b2, r2)) ∧
    ¬ (∃ b2 r2, (ChunkedReader [([0, 5, 104, 101, 108, 108, 111], none)]).Read [7, 7, 7]
        = some (0, none, b2, r2)) := by
  refine ⟨ChunkedReader_allocated _, by decide, ?_, ?_⟩
  · exact ((chunkedReader_Read_zero_nil_iff (ChunkedReader [([0, 0], none)]) [7, 7, 7]
      (ChunkedReader_allocated _) (by decide)).2.2 (clean_singleton _)).mpr
      ⟨rfl, [], bytes_singleton _ _⟩
  · intro h
    have := ((chunkedReader_Read_zero_nil_iff
      (ChunkedReader [([0, 5, 104, 101, 108, 108, 111], none)]) [7, 7, 7]
      (ChunkedReader_allocated _) (by decide)).2.2 (clean_singleton _)).mp h
    obtain ⟨_, rest, hb⟩ := this
    rw [show Source.bytes (ChunkedReader [([0, 5, 104, 101, 108, 108, 111], none)]).Reader
      = [0, 5, 104, 101, 108, 108, 111] from bytes_singleton _ _] at hb
    simp only [List.cons.injEq] at hb
    exact absurd hb.2.1 (by decide)

/-! ### The writer on any sink -/

/-- C15. Zero-byte write: with fuel for one iteration of the loop, `Write` of an
empty buffer returns `(0, nil)` and leaves the writer, and so its sink with the
writes it has recorded and the answers it holds ready, exactly as it was,
whatever the sink would answer to a write. -/
theorem chunkedWriter_Write_empty (fuel : Nat) (w : chunkedWriter) :
    chunkedWriter.Write (fuel + 1) w [] = some (0, none, w) := by
  simp [chunkedWriter.Write, chunkedWriter.ReadFrom, bytesBuffer, Buffer.Read, defaultChunkSize]

/-- More fuel does not change a result of `ReadFrom`. -/
theorem ReadFrom_more_fuel {σ : Type} (R : ByteReader σ) (fuel : Nat) :
    ∀ (extra : Nat) (w : chunkedWriter) (r : σ) (n : Nat)
      (x : Nat × Option Error × chunkedWriter × σ),
    chunkedWriter.ReadFrom R fuel w r n = some x →
    chunkedWriter.ReadFrom R (fuel + extra) w r n = some x := by
  induction fuel with
  | zero => intro extra w r n x h; simp [chunkedWriter.ReadFrom] at h
  | succ fuel ih =>
    intro extra w r n x h
    have hf : fuel + 1 + extra = (fuel + extra) + 1 := by omega
    rw [hf]
    simp only [chunkedWriter.ReadFrom] at h ⊢
    split
    · rename_i hnr
      simp only [hnr, if_true] at h
      split
      · rename_i ew hw
        simp only [hw] at h
        exact h
      · rename_i hw
        simp only [hw] at h
        split
        · rename_i e he
          simp only [he] at h
          exact h
        · rename_i he
          simp only [he] at h
          exact ih extra _ _ _ x h
    · rename_i hnr
      simp only [hnr, if_false] at h
      split
      · rename_i e he
        simp only [he] at h
        exact h
      · rename_i he
        simp only [he] at h
        exact ih extra _ _ _ x h

/-- The loop of `ReadFrom` over `bytes.NewBuffer(b)` ends within
`ceil(k/8192) + 1` iterations on every sink. -/
theorem ReadFrom_bytesBuffer_ends (fuel : Nat) : ∀ (b : List Byte) (w : chunkedWriter) (n : Nat),
    chunkCount b.length + 1 ≤ fuel →
    ∃ x, chunkedWriter.ReadFrom bytesBuffer fuel w b n = some x := by
  induction fuel with
  | zero => intro b w n h; omega
  | succ fuel ih =>
    intro b w n hf
    by_cases hb : b = []
    · subst hb
      exact ⟨(n, none, w, []),
        by simp [chunkedWriter.ReadFrom, bytesBuffer, Buffer.Read, defaultChunkSize]⟩
    · have hpos : 0 < b.length := List.length_pos.mpr hb
      have hemp : b.isEmpty = false := by
        cases b with
        | nil => exact absurd rfl hb
        | cons _ _ => rfl
      have hnr : (b.take defaultChunkSize).length > 0 := by
        simp [List.length_take, defaultChunkSize]; omega
      have hread : bytesBuffer.Read b defaultChunkSize =
          ((b.take defaultChunkSize, none), b.drop defaultChunkSize) := by
        simp [bytesBuffer, Buffer.Read, hemp]
      have hc : chunkCount (b.drop defaultChunkSize).length + 1 ≤ fuel := by
        simp only [chunkCount, List.length_drop, defaultChunkSize] at hf ⊢
        have : (1 <<< 13 : Nat) = 8192 := rfl
        omega
      simp only [chunkedWriter.ReadFrom, hread, hnr, if_true]
      split
      · exact ⟨_, rfl⟩
      · exact ih _ _ _ hc

/-- C19. Termination of Write: on every sink the loop of `Write` ends within
`ceil(k/8192) + 1` iterations, each of which reads the input once, and more fuel
gives the same result; a read of a non-empty buffer hands out at least one byte
with a nil error and leaves fewer bytes unread, and a read of the empty buffer
reports `io.EOF`. On a source that keeps returning 0 bytes with a nil error the
loop of `ReadFrom` does not end, whatever the fuel. -/
theorem chunkedWriter_Write_terminates (w : chunkedWriter) (b : List Byte) (extra : Nat) :
    (∃ x, chunkedWriter.Write (chunkCount b.length + 1) w b = some x ∧
      chunkedWriter.Write (chunkCount b.length + 1 + extra) w b = some x) ∧
    (∀ (x : Byte) (t : List Byte),
      1 ≤ (Buffer.Read (x :: t) defaultChunkSize).1.1.length ∧
      (Buffer.Read (x :: t) defaultChunkSize).1.2 = none ∧
      (Buffer.Read (x :: t) defaultChunkSize).2.length < (x :: t).length) ∧
    Buffer.Read [] defaultChunkSize = (([], some Error.EOF), []) ∧
    (∀ fuel n, chunkedWriter.ReadFrom idle fuel w () n = none) := by
  refine ⟨?_, ?_, rfl, ?_⟩
  · obtain ⟨x, hx⟩ := ReadFrom_bytesBuffer_ends (chunkCount b.length + 1) b w 0 (le_refl _)
    have hx2 := ReadFrom_more_fuel bytesBuffer _ extra w b 0 x hx
    exact ⟨(x.1, x.2.1, x.2.2.1), by simp [chunkedWriter.Write, hx],
      by simp [chunkedWriter.Write, hx2]⟩
  · intro x t
    have h8 : defaultChunkSize = 8192 := rfl
    simp only [Buffer.Read, List.isEmpty_cons, Bool.false_eq_true, if_false, h8,
      List.length_take, List.length_drop, List.length_cons]
    refine ⟨by omega, trivial, by omega⟩
  · intro fuel
    induction fuel with
    | zero => intro n; rfl
    | succ fuel ih =>
      intro n
      simp only [chunkedWriter.ReadFrom, idle, List.length_nil, gt_iff_lt, lt_self_iff_false,
        if_false]
      exact ih n

/-! ### The writer on a sink that fails, and over a streamed source -/

/-- A write that the script of the sink lets succeed is recorded and uses up one
entry of the script. -/
theorem Sink_Write_take (s : Sink) (p : List Byte) (k : Nat)
    (h : ∀ e ∈ s.results.take (k + 1), e = none) :
    (s.Write p).1 = none ∧ (s.Write p).2.writes = s.writes ++ [p]
      ∧ (s.Write p).2.results = s.results.drop 1
      ∧ ∀ e ∈ (s.Write p).2.results.take k, e = none := by
  unfold Sink.Write
  cases hr : s.results with
  | nil => simp
  | cons e rest =>
    rw [hr] at h
    have he : e = none := h e (by simp)
    subst he
    refine ⟨rfl, rfl, rfl, ?_⟩
    intro e he
    exact h e (by simp [he])

/-- A write that the script of the sink makes fail. -/
theorem Sink_Write_fails (s : Sink) (p : List Byte) (e : Error) (rs : List (Option Error))
    (h : s.results = some e :: rs) :
    s.Write p = (some e, { writes := s.writes ++ [p], results := rs }) := by
  unfold Sink.Write
  rw [h]

/-- One iteration of `ReadFrom` whose read returns at least one byte and whose
sink write fails: the loop ends there with the error of the sink, whatever the
error of the read. -/
theorem ReadFrom_abort {σ : Type} (R : ByteReader σ) (fuel : Nat) (w : chunkedWriter) (r : σ)
    (n : Nat) (e : Error) (rs : List (Option Error))
    (hnr : 0 < (R.Read r defaultChunkSize).1.1.length)
    (hlt : (R.Read r defaultChunkSize).1.1.length < 65536)
    (hs : w.Writer.results = some e :: rs) :
    ∃ w2, chunkedWriter.ReadFrom R (fuel + 1) w r n
        = some (n + (R.Read r defaultChunkSize).1.1.length, some e, w2,
            (R.Read r defaultChunkSize).2)
      ∧ w2.Writer.writes = w.Writer.writes ++
          [bigEndian16 (R.Read r defaultChunkSize).1.1.length ++ (R.Read r defaultChunkSize).1.1]
      ∧ w2.Writer.results = rs := by
  have htake : (PutUint16 (R.Read r defaultChunkSize).1.1.length ++ (R.Read r defaultChunkSize).1.1
      ++ w.buf.drop (lenSize + (R.Read r defaultChunkSize).1.1.length)).take
        (lenSize + (R.Read r defaultChunkSize).1.1.length)
      = PutUint16 (R.Read r defaultChunkSize).1.1.length ++ (R.Read r defaultChunkSize).1.1 := by
    apply List.take_left'
    simp [PutUint16_length, lenSize]
  have hgt : (R.Read r defaultChunkSize).1.1.length > 0 := hnr
  simp only [chunkedWriter.ReadFrom, hgt, if_true, htake, Sink_Write_fails _ _ e rs hs]
  exact ⟨_, rfl, by rw [PutUint16_eq_bigEndian16 _ hlt], rfl⟩

/-- One iteration of `ReadFrom` whose read returns at least one byte with a nil
error and whose sink write succeeds: the frame is written and the loop goes on. -/
theorem ReadFrom_step {σ : Type} (R : ByteReader σ) (fuel : Nat) (w : chunkedWriter) (r : σ)
    (n k : Nat)
    (hnr : 0 < (R.Read r defaultChunkSize).1.1.length)
    (hlt : (R.Read r defaultChunkSize).1.1.length < 65536)
    (her : (R.Read r defaultChunkSize).1.2 = none)
    (hs : ∀ e ∈ w.Writer.results.take (k + 1), e = none) :
    ∃ w2, chunkedWriter.ReadFrom R (fuel + 1) w r n
        = chunkedWriter.ReadFrom R fuel w2 (R.Read r defaultChunkSize).2
            (n + (R.Read r defaultChunkSize).1.1.length)
      ∧ w2.Writer.writes = w.Writer.writes ++
          [bigEndian16 (R.Read r defaultChunkSize).1.1.length ++ (R.Read r defaultChunkSize).1.1]
      ∧ w2.Writer.results = w.Writer.results.drop 1
      ∧ ∀ e ∈ w2.Writer.results.take k, e = none := by
  have htake : (PutUint16 (R.Read r defaultChunkSize).1.1.length ++ (R.Read r defaultChunkSize).1.1
      ++ w.buf.drop (lenSize + (R.Read r defaultChunkSize).1.1.length)).take
        (lenSize + (R.Read r defaultChunkSize).1.1.length)
      = PutUint16 (R.Read r defaultChunkSize).1.1.length ++ (R.Read r defaultChunkSize).1.1 := by
    apply List.take_left'
    simp [PutUint16_length, lenSize]
  have hgt : (R.Read r defaultChunkSize).1.1.length > 0 := hnr
  obtain ⟨s1, s2, s3, s4⟩ := Sink_Write_take w.Writer
    (PutUint16 (R.Read r defaultChunkSize).1.1.length ++ (R.Read r defaultChunkSize).1.1) k hs
  simp only [chunkedWriter.ReadFrom, hgt, if_true, htake, s1, her]
  exact ⟨_, rfl, by rw [s2, PutUint16_eq_bigEndian16 _ hlt], s3, s4⟩

/-- One iteration of `ReadFrom` whose read returns no byte and a nil error. -/
theorem ReadFrom_skip {σ : Type} (R : ByteReader σ) (fuel : Nat) (w : chunkedWriter) (r : σ)
    (n : Nat)
    (hnr : (R.Read r defaultChunkSize).1.1.length = 0)
    (her : (R.Read r defaultChunkSize).1.2 = none) :
    chunkedWriter.ReadFrom R (fuel + 1) w r n
      = chunkedWriter.ReadFrom R fuel w (R.Read r defaultChunkSize).2 n := by
  have hgt : ¬ (R.Read r defaultChunkSize).1.1.length > 0 := by omega
  simp only [chunkedWriter.ReadFrom, hgt, if_false, her]

/-- A read of `bytes.NewBuffer(b)` with a non-empty `b`. -/
theorem bytesBuffer_Read (b : List Byte) (hb : b ≠ []) :
    bytesBuffer.Read b defaultChunkSize = ((b.take 8192, none), b.drop 8192) := by
  have hemp : b.isEmpty = false := by
    cases b with
    | nil => exact absurd rfl hb
    | cons _ _ => rfl
  have h8 : defaultChunkSize = 8192 := rfl
  simp [bytesBuffer, Buffer.Read, hemp, h8]

/-- The first `j` iterations of `ReadFrom` over `bytes.NewBuffer(b)`, when `b` has
more than `8192*j` bytes and the first `j` writes of the sink succeed: `j` full
frames are written and `8192*j` bytes of the input are read. -/
theorem ReadFrom_bytesBuffer_steps (j : Nat) : ∀ (b : List Byte) (w : chunkedWriter)
    (n fuel : Nat), 8192 * j < b.length → (∀ e ∈ w.Writer.results.take j, e = none) →
    ∃ w2, chunkedWriter.ReadFrom bytesBuffer (j + fuel) w b n
        = chunkedWriter.ReadFrom bytesBuffer fuel w2 (b.drop (8192 * j)) (n + 8192 * j)
      ∧ w2.Writer.writes = w.Writer.writes ++ (frames b).take j
      ∧ w2.Writer.results = w.Writer.results.drop j := by
  induction j with
  | zero =>
    intro b w n fuel _ _
    exact ⟨w, by simp, by simp, by simp⟩
  | succ j ih =>
    intro b w n fuel hb hs
    have hne : b ≠ [] := by
      intro h; rw [h] at hb; simp at hb
    have hread := bytesBuffer_Read b hne
    have hlen : (b.take 8192).length = 8192 := by
      rw [List.length_take]; omega
    obtain ⟨w1, e1, e2, e3, e4⟩ := ReadFrom_step bytesBuffer (j + fuel) w b n j
      (by rw [hread]; simp only; omega) (by rw [hread]; simp only; omega)
      (by rw [hread]) hs
    rw [hread] at e1 e2
    simp only [hlen] at e1 e2
    obtain ⟨w2, f1, f2, f3⟩ := ih (b.drop 8192) w1 (n + 8192) fuel
      (by rw [List.length_drop]; omega) e4
    refine ⟨w2, ?_, ?_, ?_⟩
    · have hf : j + 1 + fuel = j + fuel + 1 := by omega
      rw [hf, e1, f1, List.drop_drop]
      have h1 : 8192 + 8192 * j = 8192 * (j + 1) := by omega
      have h2 : n + 8192 + 8192 * j = n + 8192 * (j + 1) := by omega
      rw [h1, h2]
    · rw [f2, e2, frames_cons b hne, List.take_succ_cons, hlen, List.append_assoc]
      rfl
    · rw [f3, e3, List.drop_drop]
      congr 1
      omega

/-- The loop of `ReadFrom` over `bytes.NewBuffer(b)` on a sink whose first `j`
writes succeed and whose next write returns the error `e`, when `b` has more than
`8192*j` bytes: the loop ends in iteration `j + 1` with `e`, the count of all
bytes read so far, `j + 1` sink writes made and the rest of the input unread. -/
theorem ReadFrom_bytesBuffer_sink_fails (j : Nat) (b : List Byte) (w : chunkedWriter)
    (n fuel : Nat) (e : Error) (rs : List (Option Error))
    (hb : 8192 * j < b.length)
    (hs : w.Writer.results = List.replicate j none ++ some e :: rs)
    (hf : j + 1 ≤ fuel) :
    ∃ w2, chunkedWriter.ReadFrom bytesBuffer fuel w b n
        = some (n + (8192 * j + (segment b j).length), some e, w2, b.drop (8192 * (j + 1)))
      ∧ w2.Writer.writes = w.Writer.writes ++ (frames b).take (j + 1)
      ∧ w2.Writer.results = rs := by
  have hpre : ∀ x ∈ w.Writer.results.take j, x = none := by
    intro x hx
    rw [hs, List.take_left' (List.length_replicate _ _)] at hx
    exact List.eq_of_mem_replicate hx
  obtain ⟨w1, e1, e2, e3⟩ := ReadFrom_bytesBuffer_steps j b w n (fuel - j - 1 + 1) hb hpre
  have hres : w1.Writer.results = some e :: rs := by
    rw [e3, hs, List.drop_left' (List.length_replicate _ _)]
  have hne : b.drop (8192 * j) ≠ [] := by
    intro h
    have := congrArg List.length h
    rw [List.length_drop] at this
    simp at this
    omega
  have hread := bytesBuffer_Read _ hne
  have hseg : (b.drop (8192 * j)).take 8192 = segment b j := by
    simp only [segment, slice]
    rw [List.take_eq_take]
    simp only [List.length_drop]
    omega
  obtain ⟨w2, g1, g2, g3⟩ := ReadFrom_abort bytesBuffer (fuel - j - 1) w1 (b.drop (8192 * j))
    (n + 8192 * j) e rs
    (by rw [hread]; simp only [List.length_take, List.length_drop]; omega)
    (by rw [hread]; simp only [List.length_take, List.length_drop]; omega) hres
  rw [hread] at g1 g2
  simp only [hseg, List.drop_drop] at g1 g2
  have hfuel : j + (fuel - j - 1 + 1) = fuel := by omega
  rw [hfuel] at e1
  refine ⟨w2, ?_, ?_, g3⟩
  · rw [e1, g1]
    have h1 : 8192 * j + 8192 = 8192 * (j + 1) := by omega
    rw [h1, Nat.add_assoc]
  · rw [g2, e2, List.append_assoc]
    congr 1
    have hj : j < (frames b).length := by
      simp only [frames, List.length_map, List.length_range, chunkCount]
      omega
    rw [List.take_succ, List.getElem?_eq_getElem hj]
    simp [frames]

/-- A read of a scripted source whose next entry has at most 8192 bytes hands
out the entry whole. -/
theorem scripted_Read (bs : List Byte) (e : Option Error) (s : Source)
    (h : bs.length ≤ 8192) :
    scripted.Read ((bs, e) :: s) defaultChunkSize = ((bs, e), s) := by
  have h8 : defaultChunkSize = 8192 := rfl
  simp [scripted, Source.Read, h8, h]

/-- No frame for a read that returned no byte. -/
theorem streamFrames_nil_cons (reads : List (List Byte)) :
    streamFrames ([] :: reads) = streamFrames reads := by
  simp [streamFrames]

/-- The frame of a read that returned bytes comes first. -/
theorem streamFrames_cons (bs : List Byte) (reads : List (List Byte)) (h : bs ≠ []) :
    streamFrames (bs :: reads) = (bigEndian16 bs.length ++ bs) :: streamFrames reads := by
  simp [streamFrames, h]

/-- Frames of reads followed by one more read. -/
theorem streamFrames_append (xs ys : List (List Byte)) :
    streamFrames (xs ++ ys) = streamFrames xs ++ streamFrames ys := by
  simp [streamFrames]

/-- The bytes of a script, entry by entry. -/
theorem bytes_cons (bs : List Byte) (e : Option Error) (s : Source) :
    Source.bytes ((bs, e) :: s) = bs ++ Source.bytes s := by
  simp [Source.bytes]

/-- The iterations of `ReadFrom` over the first reads of a streamed source, when
these return at most 8192 bytes each with a nil error and the sink writes they
cause succeed: one frame is written per read that returned bytes. -/
theorem ReadFrom_scripted_steps (pre : Source) : ∀ (w : chunkedWriter) (n fuel : Nat)
    (rest : Source), (∀ x ∈ pre, x.2 = none ∧ x.1.length ≤ 8192) →
    (∀ e ∈ w.Writer.results.take (streamFrames (pre.map Prod.fst)).length, e = none) →
    ∃ w2, chunkedWriter.ReadFrom scripted (pre.length + fuel) w (pre ++ rest) n
        = chunkedWriter.ReadFrom scripted fuel w2 rest (n + (Source.bytes pre).length)
      ∧ w2.Writer.writes = w.Writer.writes ++ streamFrames (pre.map Prod.fst)
      ∧ w2.Writer.results = w.Writer.results.drop (streamFrames (pre.map Prod.fst)).length := by
  induction pre with
  | nil =>
    intro w n fuel rest _ _
    exact ⟨w, by simp [Source.bytes], by simp [streamFrames], by simp [streamFrames]⟩
  | cons x pre ih =>
    obtain ⟨bs, er⟩ := x
    intro w n fuel rest hpre hs
    obtain ⟨her, hlen⟩ := hpre (bs, er) (by simp)
    simp only at her hlen
    subst her
    have hpre2 : ∀ x ∈ pre, x.2 = none ∧ x.1.length ≤ 8192 := fun x hx => hpre x (by simp [hx])
    have hread := scripted_Read bs none (pre ++ rest) hlen
    have hf : (((bs, none) :: pre : Source)).length + fuel = pre.length + fuel + 1 := by
      simp only [List.length_cons]; omega
    have hmap : List.map Prod.fst ((bs, (none : Option Error)) :: pre)
        = bs :: pre.map Prod.fst := rfl
    rw [hmap] at hs
    rw [hf, List.cons_append, hmap, bytes_cons]
    by_cases hb : bs = []
    · subst hb
      rw [streamFrames_nil_cons] at hs ⊢
      obtain ⟨w2, f1, f2, f3⟩ := ih w n fuel rest hpre2 hs
      refine ⟨w2, ?_, f2, f3⟩
      rw [ReadFrom_skip scripted _ w _ n (by rw [hread]; rfl) (by rw [hread]), hread, f1]
      simp
    · have hpos : 0 < bs.length := List.length_pos.mpr hb
      rw [streamFrames_cons bs _ hb] at hs ⊢
      simp only [List.length_cons] at hs ⊢
      obtain ⟨w1, e1, e2, e3, e4⟩ := ReadFrom_step scripted (pre.length + fuel) w
        ((bs, none) :: (pre ++ rest)) n (streamFrames (pre.map Prod.fst)).length
        (by rw [hread]; exact hpos) (by rw [hread]; simp only; omega) (by rw [hread]) hs
      rw [hread] at e1 e2
      simp only at e1 e2
      obtain ⟨w2, f1, f2, f3⟩ := ih w1 (n + bs.length) fuel rest hpre2 e4
      refine ⟨w2, ?_, ?_, ?_⟩
      · rw [e1, f1, List.length_append, Nat.add_assoc]
      · rw [f2, e2, List.append_assoc]
        rfl
      · rw [f3, e3, List.drop_drop]
        congr 1
        omega

/-- The last iteration of `ReadFrom`, whose read returns an error: a frame is
written if the read returned bytes, and the error is returned unless it is
`io.EOF`. -/
theorem ReadFrom_last {σ : Type} (R : ByteReader σ) (fuel : Nat) (w : chunkedWriter) (r : σ)
    (n : Nat) (e : Error)
    (hlt : (R.Read r defaultChunkSize).1.1.length < 65536)
    (her : (R.Read r defaultChunkSize).1.2 = some e)
    (hs : w.Writer.neverFails) :
    ∃ w2, chunkedWriter.ReadFrom R (fuel + 1) w r n
        = some (n + (R.Read r defaultChunkSize).1.1.length,
            (if e = Error.EOF then none else some e), w2, (R.Read r defaultChunkSize).2)
      ∧ w2.Writer.writes = w.Writer.writes ++ streamFrames [(R.Read r defaultChunkSize).1.1] := by
  by_cases hnr : (R.Read r defaultChunkSize).1.1.length > 0
  · have htake : (PutUint16 (R.Read r defaultChunkSize).1.1.length
        ++ (R.Read r defaultChunkSize).1.1
        ++ w.buf.drop (lenSize + (R.Read r defaultChunkSize).1.1.length)).take
          (lenSize + (R.Read r defaultChunkSize).1.1.length)
        = PutUint16 (R.Read r defaultChunkSize).1.1.length ++ (R.Read r defaultChunkSize).1.1 := by
      apply List.take_left'
      simp [PutUint16_length, lenSize]
    obtain ⟨s1, s2, _⟩ := Sink_Write_ok w.Writer
      (PutUint16 (R.Read r defaultChunkSize).1.1.length ++ (R.Read r defaultChunkSize).1.1) hs
    have hne : (R.Read r defaultChunkSize).1.1 ≠ [] := List.length_pos.mp hnr
    simp only [chunkedWriter.ReadFrom, hnr, if_true, htake, s1, her]
    refine ⟨_, rfl, ?_⟩
    rw [s2, streamFrames_cons _ _ hne, PutUint16_eq_bigEndian16 _ hlt]
    rfl
  · have h0 : (R.Read r defaultChunkSize).1.1 = [] := by
      cases h : (R.Read r defaultChunkSize).1.1 with
      | nil => rfl
      | cons _ _ => rw [h] at hnr; simp at hnr
    simp only [chunkedWriter.ReadFrom, hnr, if_false, her]
    refine ⟨w, ?_, ?_⟩
    · rw [h0]; rfl
    · rw [h0, streamFrames_nil_cons]; simp [streamFrames]

/-- C14. Streaming variant: for a source whose reads return at most 8192 bytes
each, the first ones with a nil error and then one with the error `e`, and a sink
that never fails, `ReadFrom` with fuel for these reads writes one frame
`2-byte big-endian length || bytes` per read that returned at least one byte, the
last read included, in order, reads nothing after the read with the error, and
returns the number of bytes read, with a nil error if `e` is `io.EOF` and with `e`
otherwise. -/
theorem chunkedWriter_ReadFrom_streaming (fuel : Nat) (w : chunkedWriter)
    (pre : Source) (bs : List Byte) (e : Error) (post : Source)
    (hw : w.Writer.neverFails)
    (hpre : ∀ x ∈ pre, x.2 = none ∧ x.1.length ≤ 8192) (hbs : bs.length ≤ 8192)
    (hf : pre.length + 1 ≤ fuel) :
    ∃ w2, chunkedWriter.ReadFrom scripted fuel w (pre ++ (bs, some e) :: post) 0
        = some ((Source.bytes (pre ++ [(bs, some e)])).length,
            (if e = Error.EOF then none else some e), w2, post)
      ∧ w2.Writer.writes
          = w.Writer.writes ++ streamFrames ((pre ++ [(bs, some e)]).map Prod.fst) := by
  obtain ⟨w1, e1, e2, e3⟩ := ReadFrom_scripted_steps pre w 0 (fuel - pre.length - 1 + 1)
    ((bs, some e) :: post) hpre (fun x hx => hw x (List.mem_of_mem_take hx))
  have hw1 : w1.Writer.neverFails := by
    intro x hx
    rw [e3] at hx
    exact hw x (List.mem_of_mem_drop hx)
  have hread := scripted_Read bs (some e) post hbs
  obtain ⟨w2, g1, g2⟩ := ReadFrom_last scripted (fuel - pre.length - 1) w1
    ((bs, some e) :: post) (0 + (Source.bytes pre).length) e
    (by rw [hread]; simp only; omega) (by rw [hread]) hw1
  rw [hread] at g1 g2
  simp only at g1 g2
  have hfuel : pre.length + (fuel - pre.length - 1 + 1) = fuel := by omega
  rw [hfuel] at e1
  refine ⟨w2, ?_, ?_⟩
  · rw [e1, g1]
    simp [Source.bytes]
  · rw [g2, e2, List.map_append, streamFrames_append, List.append_assoc]
    rfl

/-- Witness of C14: reads "he", nothing, "llo" together with a fault: two frames,
five bytes, the fault returned, the entry after the fault unread. -/
theorem chunkedWriter_ReadFrom_streaming_witness :
    (ChunkedWriter ⟨[], []⟩).Writer.neverFails ∧
    (∀ x ∈ ([([104, 101], none), ([], none)] : Source), x.2 = none ∧ x.1.length ≤ 8192) ∧
    ([108, 108, 111] : List Byte).length ≤ 8192 ∧
    ([([104, 101], none), ([], none)] : Source).length + 1 ≤ 3 ∧
    ∃ w2, chunkedWriter.ReadFrom scripted 3 (ChunkedWriter ⟨[], []⟩)
        ([([104, 101], none), ([], none)] ++ ([108, 108, 111], some (Error.fault 7)) :: [([9], none)]) 0
        = some (5, some (Error.fault 7), w2, [([9], none)])
      ∧ w2.Writer.writes = [[0, 2, 104, 101], [0, 3, 108, 108, 111]] := by
  have h1 : (ChunkedWriter ⟨[], []⟩).Writer.neverFails := by
    intro e he; simp [ChunkedWriter] at he
  have h2 : ∀ x ∈ ([([104, 101], none), ([], none)] : Source), x.2 = none ∧ x.1.length ≤ 8192 := by
    decide
  obtain ⟨w2, e1, e2⟩ := chunkedWriter_ReadFrom_streaming 3 (ChunkedWriter ⟨[], []⟩)
    [([104, 101], none), ([], none)] [108, 108, 111] (Error.fault 7) [([9], none)]
    h1 h2 (by decide) (by decide)
  exact ⟨h1, h2, by decide, by decide, w2, e1, by rw [e2]; decide⟩

/-- C13. Abort on sink failure, for a sink whose first `j` writes succeed and
whose next write returns the error `e`. For `ReadFrom` over a source whose reads
return at most 8192 bytes each: when the reads before have caused `j` frames and
the next read returns at least one byte, with or without an error of its own,
`ReadFrom` returns `e`, has made exactly the `j + 1` sink writes, and has read
nothing after that read. For `Write` of a buffer of more than `8192*j` bytes the
same holds: `e` is returned, exactly `j + 1` sink writes were made and the input
after chunk `j + 1` is unread. -/
theorem chunkedWriter_ReadFrom_sink_failure (fuel : Nat) (w : chunkedWriter) (j : Nat)
    (e : Error) (rs : List (Option Error))
    (hs : w.Writer.results = List.replicate j none ++ some e :: rs) :
    (∀ (pre : Source) (bs : List Byte) (er : Option Error) (post : Source),
      (∀ x ∈ pre, x.2 = none ∧ x.1.length ≤ 8192) →
      (streamFrames (pre.map Prod.fst)).length = j →
      1 ≤ bs.length → bs.length ≤ 8192 → pre.length + 1 ≤ fuel →
      ∃ w2, chunkedWriter.ReadFrom scripted fuel w (pre ++ (bs, er) :: post) 0
          = some ((Source.bytes pre).length + bs.length, some e, w2, post)
        ∧ w2.Writer.writes = w.Writer.writes ++ streamFrames (pre.map Prod.fst)
            ++ [bigEndian16 bs.length ++ bs]
        ∧ w2.Writer.results = rs) ∧
    (∀ (b : List Byte), 8192 * j < b.length → j + 1 ≤ fuel →
      ∃ w2, chunkedWriter.ReadFrom bytesBuffer fuel w b 0
          = some (8192 * j + (segment b j).length, some e, w2, b.drop (8192 * (j + 1)))
        ∧ chunkedWriter.Write fuel w b = some (8192 * j + (segment b j).length, some e, w2)
        ∧ w2.Writer.writes = w.Writer.writes ++ (frames b).take (j + 1)
        ∧ w2.Writer.writes.length = w.Writer.writes.length + (j + 1)
        ∧ w2.Writer.results = rs) := by
  constructor
  · intro pre bs er post hpre hj hb1 hb2 hf
    have htk : ∀ x ∈ w.Writer.results.take (streamFrames (pre.map Prod.fst)).length,
        x = none := by
      intro x hx
      rw [hj, hs, List.take_left' (List.length_replicate _ _)] at hx
      exact List.eq_of_mem_replicate hx
    obtain ⟨w1, e1, e2, e3⟩ := ReadFrom_scripted_steps pre w 0 (fuel - pre.length - 1 + 1)
      ((bs, er) :: post) hpre htk
    have hres : w1.Writer.results = some e :: rs := by
      rw [e3, hj, hs, List.drop_left' (List.length_replicate _ _)]
    have hread := scripted_Read bs er post hb2
    obtain ⟨w2, g1, g2, g3⟩ := ReadFrom_abort scripted (fuel - pre.length - 1) w1
      ((bs, er) :: post) (0 + (Source.bytes pre).length) e rs
      (by rw [hread]; exact hb1) (by rw [hread]; simp only; omega) hres
    rw [hread] at g1 g2
    simp only at g1 g2
    have hfuel : pre.length + (fuel - pre.length - 1 + 1) = fuel := by omega
    rw [hfuel] at e1
    refine ⟨w2, ?_, ?_, g3⟩
    · rw [e1, g1, Nat.zero_add]
    · rw [g2, e2]
  · intro b hb hf
    obtain ⟨w2, e1, e2, e3⟩ := ReadFrom_bytesBuffer_sink_fails j b w 0 fuel e rs hb hs hf
    rw [Nat.zero_add] at e1
    refine ⟨w2, e1, by simp [chunkedWriter.Write, e1], e2, ?_, e3⟩
    rw [e2, List.length_append, List.length_take]
    simp only [frames, List.length_map, List.length_range, chunkCount]
    omega

/-- Witness of C13: a sink that fails on its first write; a source whose first
read returns three bytes together with a fault of its own, and the buffer
"hello". -/
theorem chunkedWriter_ReadFrom_sink_failure_witness :
    (ChunkedWriter ⟨[], [some (Error.fault 1)]⟩).Writer.results
      = List.replicate 0 none ++ some (Error.fault 1) :: [] ∧
    (∃ w2, chunkedWriter.ReadFrom scripted 1 (ChunkedWriter ⟨[], [some (Error.fault 1)]⟩)
        ([] ++ ([1, 2, 3], some (Error.fault 7)) :: [([9], none)]) 0
        = some (3, some (Error.fault 1), w2, [([9], none)])
      ∧ w2.Writer.writes = [[0, 3, 1, 2, 3]] ∧ w2.Writer.results = []) ∧
    (∃ w2, chunkedWriter.Write 1 (ChunkedWriter ⟨[], [some (Error.fault 1)]⟩)
        [104, 101, 108, 108, 111] = some (5, some (Error.fault 1), w2)
      ∧ w2.Writer.writes = [[0, 5, 104, 101, 108, 108, 111]] ∧ w2.Writer.results = []) := by
  have h := chunkedWriter_ReadFrom_sink_failure 1 (ChunkedWriter ⟨[], [some (Error.fault 1)]⟩)
    0 (Error.fault 1) [] rfl
  refine ⟨rfl, ?_, ?_⟩
  · obtain ⟨w2, e1, e2, e3⟩ := h.1 [] [1, 2, 3] (some (Error.fault 7)) [([9], none)]
      (by decide) (by decide) (by decide) (by decide) (by decide)
    exact ⟨w2, e1, by rw [e2]; decide, e3⟩
  · obtain ⟨w2, _, e1, e2, _, e3⟩ := h.2 [104, 101, 108, 108, 111] (by decide) (by decide)
    exact ⟨w2, e1, by rw [e2]; decide, e3⟩

/-- C12 (as stated, refuted). A sink that fails on its first write (`j = 0`) and
the buffer "hello": `Write` returns the error with the count 5, the bytes of the
chunk whose write failed included, not `8192*0 = 0`. -/
theorem chunkedWriter_Write_count_on_failure_counterexample :
    (chunkedWriter.Write 1 (ChunkedWriter ⟨[], [some (Error.fault 1)]⟩)
        [104, 101, 108, 108, 111]).map (fun x => (x.1, x.2.1))
      = some (5, some (Error.fault 1)) ∧ 5 ≠ 8192 * 0 := by
  decide

/-- C12 (amended). On a sink whose first `j` writes succeed and whose next write
returns the error `e`, `Write` of a buffer of more than `8192*j` bytes returns `e`
together with the number of input bytes read so far, the chunk whose write failed
included: `8192*j` plus the 1 to 8192 bytes of chunk `j + 1`, that is
`min(k, 8192*(j+1))`. -/
theorem chunkedWriter_Write_count_on_failure (fuel : Nat) (w : chunkedWriter) (b : List Byte)
    (j : Nat) (e : Error) (rs : List (Option Error))
    (hs : w.Writer.results = List.replicate j none ++ some e :: rs)
    (hb : 8192 * j < b.length) (hf : j + 1 ≤ fuel) :
    ∃ w2, chunkedWriter.Write fuel w b = some (8192 * j + (segment b j).length, some e, w2)
      ∧ 1 ≤ (segment b j).length ∧ (segment b j).length ≤ 8192
      ∧ 8192 * j + (segment b j).length = min b.length (8192 * (j + 1))
      ∧ w2.Writer.writes = w.Writer.writes ++ (frames b).take (j + 1) := by
  obtain ⟨w2, e1, e2, _⟩ := ReadFrom_bytesBuffer_sink_fails j b w 0 fuel e rs hb hs hf
  rw [Nat.zero_add] at e1
  have hl := segment_length b j
  exact ⟨w2, by simp [chunkedWriter.Write, e1], by omega, by omega, by omega, e2⟩

/-- Witness of C12 (amended): 8193 bytes on a sink that fails on its second
write; the count returned is 8193. -/
theorem chunkedWriter_Write_count_on_failure_witness :
    (ChunkedWriter ⟨[], [none, some (Error.fault 1)]⟩).Writer.results
      = List.replicate 1 none ++ some (Error.fault 1) :: [] ∧
    8192 * 1 < (List.replicate 8193 (7 : Byte)).length ∧ 1 + 1 ≤ 2 ∧
    ∃ w2, chunkedWriter.Write 2 (ChunkedWriter ⟨[], [none, some (Error.fault 1)]⟩)
        (List.replicate 8193 7) = some (8193, some (Error.fault 1), w2) := by
  have hl : (List.replicate 8193 (7 : Byte)).length = 8193 := List.length_replicate _ _
  have hb : 8192 * 1 < (List.replicate 8193 (7 : Byte)).length := by rw [hl]; decide
  obtain ⟨w2, e1, _, _, e4, _⟩ := chunkedWriter_Write_count_on_failure 2
    (ChunkedWriter ⟨[], [none, some (Error.fault 1)]⟩) (List.replicate 8193 7) 1
    (Error.fault 1) [] rfl hb (by decide)
  refine ⟨rfl, hb, by decide, w2, ?_⟩
  rw [e1, e4, hl]
  rfl

/-! ### The leftover over runs of reads -/

/-- A `Read` with an empty leftover that returns a result leaves an empty
leftover, or has decoded a length field `len` and leaves the
`len - min(len(b), len)` last bytes of the payload as leftover. -/
theorem Read_cut (r : chunkedReader) (b : List Byte) (n : Nat) (e : Option Error)
    (b2 : List Byte) (r2 : chunkedReader)
    (hl : r.leftover = []) (h : r.Read b = some (n, e, b2, r2)) :
    r2.leftover = [] ∨
      ∃ len, r.declared = some len ∧ r2.leftover.length + min b.length len = len := by
  have hl0 : ¬ r.leftover.length > 0 := by simp [hl]
  unfold chunkedReader.Read at h
  unfold chunkedReader.declared
  simp only [hl0, if_false] at h ⊢
  by_cases hbuf : r.buf.length < lenSize
  · simp [hbuf] at h
  · simp only [hbuf, if_false] at h ⊢
    cases hh : (ReadFull r.Reader lenSize).2.1 with
    | some e1 =>
      simp only [hh, Option.some.injEq, Prod.mk.injEq] at h
      left
      rw [← h.2.2.2]
      exact hl
    | none =>
      simp only [hh] at h ⊢
      split at h
      · simp only [Option.some.injEq, Prod.mk.injEq] at h
        left
        rw [← h.2.2.2]
        exact hl
      · split at h
        · exact absurd h (by simp)
        · split at h
          · simp only [Option.some.injEq, Prod.mk.injEq] at h
            left
            rw [← h.2.2.2]
            exact hl
          · rename_i hp
            have hplen := ReadFull_none_length _ _ hp
            right
            refine ⟨_, rfl, ?_⟩
            simp only [Option.some.injEq, Prod.mk.injEq, copy] at h
            rw [← h.2.2.2]
            simp only [List.take_left' hplen, hplen, hl]
            split
            · rw [List.length_drop, hplen]; omega
            · simp only [List.length_nil]; omega

/-- One tracked `Read` keeps the leftover within the declared length of the chunk
parsed last. -/
theorem readTracked_le (s s2 : chunkedReader × Nat) (b : List Byte)
    (hinv : s.1.leftover.length ≤ s.2) (h : readTracked s b = some s2) :
    s2.1.leftover.length ≤ s2.2 := by
  unfold readTracked at h
  cases hr : s.1.Read b with
  | none => simp [hr] at h
  | some res =>
    obtain ⟨n, e, b2, r2⟩ := res
    simp only [hr, Option.some.injEq] at h
    rw [← h]
    simp only
    by_cases hl : s.1.leftover = []
    · rcases Read_cut s.1 b n e b2 r2 hl hr with h0 | ⟨len, hd, hlen⟩
      · rw [h0]; simp
      · rw [hd]; simp only; omega
    · have hd : s.1.declared = none := by
        have hpos : s.1.leftover.length > 0 := List.length_pos.mpr hl
        simp [chunkedReader.declared, hpos]
      rw [Read_of_leftover s.1 b hl] at hr
      simp only [Option.some.injEq, Prod.mk.injEq] at hr
      rw [hd, ← hr.2.2.2]
      simp only [List.length_drop]
      omega

/-- One tracked `Read` with a caller buffer of at least one byte keeps a
non-empty leftover strictly below the declared length of the chunk parsed last. -/
theorem readTracked_lt (s s2 : chunkedReader × Nat) (b : List Byte)
    (hinv : s.1.leftover ≠ [] → s.1.leftover.length < s.2) (hb : 1 ≤ b.length)
    (h : readTracked s b = some s2) :
    s2.1.leftover ≠ [] → s2.1.leftover.length < s2.2 := by
  unfold readTracked at h
  cases hr : s.1.Read b with
  | none => simp [hr] at h
  | some res =>
    obtain ⟨n, e, b2, r2⟩ := res
    simp only [hr, Option.some.injEq] at h
    rw [← h]
    simp only
    intro hne
    have hpos2 : 0 < r2.leftover.length := List.length_pos.mpr hne
    by_cases hl : s.1.leftover = []
    · rcases Read_cut s.1 b n e b2 r2 hl hr with h0 | ⟨len, hd, hlen⟩
      · exact absurd h0 hne
      · rw [hd]; simp only; omega
    · have hd : s.1.declared = none := by
        have hpos : s.1.leftover.length > 0 := List.length_pos.mpr hl
        simp [chunkedReader.declared, hpos]
      have := hinv hl
      rw [Read_of_leftover s.1 b hl] at hr
      simp only [Option.some.injEq, Prod.mk.injEq] at hr
      rw [hd, ← hr.2.2.2]
      simp only [List.length_drop]
      omega

/-- A run of tracked reads keeps the leftover within the declared length. -/
theorem runTracked_le (bufs : List (List Byte)) : ∀ (s s2 : chunkedReader × Nat),
    s.1.leftover.length ≤ s.2 → runTracked bufs s = some s2 →
    s2.1.leftover.length ≤ s2.2 := by
  induction bufs with
  | nil =>
    intro s s2 hinv h
    simp only [runTracked, Option.some.injEq] at h
    rw [← h]; exact hinv
  | cons b bufs ih =>
    intro s s2 hinv h
    simp only [runTracked] at h
    cases hs : readTracked s b with
    | none => simp [hs] at h
    | some s1 =>
      simp only [hs] at h
      exact ih s1 s2 (readTracked_le s s1 b hinv hs) h

/-- A run of tracked reads with caller buffers of at least one byte keeps a
non-empty leftover strictly below the declared length. -/
theorem runTracked_lt (bufs : List (List Byte)) : ∀ (s s2 : chunkedReader × Nat),
    (s.1.leftover ≠ [] → s.1.leftover.length < s.2) → (∀ b ∈ bufs, 1 ≤ b.length) →
    runTracked bufs s = some s2 →
    s2.1.leftover ≠ [] → s2.1.leftover.length < s2.2 := by
  induction bufs with
  | nil =>
    intro s s2 hinv _ h
    simp only [runTracked, Option.some.injEq] at h
    rw [← h]; exact hinv
  | cons b bufs ih =>
    intro s s2 hinv hb h
    simp only [runTracked] at h
    cases hs : readTracked s b with
    | none => simp [hs] at h
    | some s1 =>
      simp only [hs] at h
      exact ih s1 s2 (readTracked_lt s s1 b hinv (hb b (by simp)) hs)
        (fun x hx => hb x (by simp [hx])) h

/-- The declared length decoded on a source that serves a whole length field. -/
theorem declared_of_header (r : chunkedReader) (h0 h1 : Byte) (rest : List Byte)
    (hl : r.leftover = []) (ha : r.allocated) (hc : Source.clean r.Reader)
    (hb : Source.bytes r.Reader = h0 :: h1 :: rest) :
    r.declared = some (Uint16 [h0, h1]) := by
  obtain ⟨s1, e1, _, _⟩ := ReadFull_clean_ok r.Reader lenSize hc (by simp [hb, lenSize])
  simp only [hb, lenSize, List.take_succ_cons, List.take_zero] at e1
  have e1' : ReadFull r.Reader lenSize = ([h0, h1], none, s1) := e1
  obtain ⟨x0, x1, t, ht, _⟩ := buf_two_of_allocated r ha
  have hlen0 : ¬ r.leftover.length > 0 := by simp [hl]
  have hns : ¬ r.buf.length < lenSize := by rw [ht]; simp [lenSize]
  simp only [chunkedReader.declared, hlen0, hns, if_false, e1']
  simp only [ht, List.length_cons, List.length_nil, List.drop_succ_cons, List.drop_zero, lenSize,
    List.cons_append, List.nil_append, List.take_succ_cons, List.take_zero]

/-- One tracked read at the length field of a complete chunk that fits the
scratch buffer. -/
theorem readTracked_of_chunk (r : chunkedReader) (L : Nat) (b : List Byte) (h0 h1 : Byte)
    (p rest : List Byte)
    (hl : r.leftover = []) (ha : r.allocated) (hc : Source.clean r.Reader)
    (hb : Source.bytes r.Reader = h0 :: h1 :: (p ++ rest))
    (hL : Uint16 [h0, h1] = p.length) (hpos : 1 ≤ p.length)
    (hfit : p.length ≤ lenSize + maxChunkSize) :
    ∃ r2, readTracked (r, L) b = some (r2, p.length)
      ∧ r2.leftover = p.drop (min b.length p.length) := by
  obtain ⟨r2, e, l2, _⟩ := Read_of_chunk r b h0 h1 p rest hl ha hc hb hL hpos hfit
  have hd := declared_of_header r h0 h1 (p ++ rest) hl ha hc hb
  refine ⟨r2, ?_, l2⟩
  simp only [readTracked, e, hd, hL]

/-- C11 (as stated, refuted). A fresh reader over the chunk "hello" (declared
length 5) and one `Read` with a caller buffer of length 0: the state reached has
the whole payload of 5 bytes as leftover, not fewer than the declared length. -/
theorem chunkedReader_leftover_invariant_counterexample :
    (runTracked [[]] (ChunkedReader [([0, 5, 104, 101, 108, 108, 111], none)], 0)).map
        (fun s => (s.1.leftover, s.2))
      = some ([104, 101, 108, 108, 111], 5) ∧
    ¬ ([104, 101, 108, 108, 111] : List Byte).length < 5 := by
  obtain ⟨r2, e, l2⟩ := readTracked_of_chunk
    (ChunkedReader [([0, 5, 104, 101, 108, 108, 111], none)]) 0 [] 0 5
    [104, 101, 108, 108, 111] [] rfl (ChunkedReader_allocated _) (clean_singleton _)
    (bytes_singleton _ _) (by decide) (by decide) (by decide)
  refine ⟨?_, by decide⟩
  simp only [runTracked, e, Option.map_some', l2]
  rfl

/-- C11 (amended). In every reader state reached from a fresh reader by `Read`
calls with any caller buffers, the leftover holds at most as many bytes as the
declared length of the chunk parsed last, from which it was cut; when every
caller buffer had at least one byte, a non-empty leftover holds strictly fewer;
and while the leftover is non-empty a `Read` decodes no length field and leaves
the source as it is. -/
theorem chunkedReader_leftover_invariant (src : Source) (bufs : List (List Byte))
    (r : chunkedReader) (L : Nat)
    (h : runTracked bufs (ChunkedReader src, 0) = some (r, L)) :
    r.leftover.length ≤ L ∧
    ((∀ b ∈ bufs, 1 ≤ b.length) → r.leftover ≠ [] → r.leftover.length < L) ∧
    (r.leftover ≠ [] → r.declared = none ∧
      ∀ b, ∃ n b2 r2, r.Read b = some (n, none, b2, r2) ∧ r2.Reader = r.Reader) := by
  refine ⟨?_, ?_, ?_⟩
  · exact runTracked_le bufs (ChunkedReader src, 0) (r, L) (by simp [ChunkedReader]) h
  · intro hb
    exact runTracked_lt bufs (ChunkedReader src, 0) (r, L)
      (fun hne => absurd rfl hne) hb h
  · intro hne
    have hpos : r.leftover.length > 0 := List.length_pos.mpr hne
    refine ⟨by simp [chunkedReader.declared, hpos], ?_⟩
    intro b
    exact ⟨_, _, _, Read_of_leftover r b hne, rfl⟩

/-- Witness of C11 (amended): the chunk "hello" read with a 3-byte buffer leaves
the 2 bytes "lo" of the chunk of declared length 5. -/
theorem chunkedReader_leftover_invariant_witness :
    ∃ r, runTracked [[0, 0, 0]] (ChunkedReader [([0, 5, 104, 101, 108, 108, 111], none)], 0)
        = some (r, 5) ∧ r.leftover = [108, 111] ∧
      r.leftover.length ≤ 5 ∧
      ((∀ b ∈ ([[0, 0, 0]] : List (List Byte)), 1 ≤ b.length) → r.leftover ≠ [] →
        r.leftover.length < 5) := by
  obtain ⟨r2, e, l2⟩ := readTracked_of_chunk
    (ChunkedReader [([0, 5, 104, 101, 108, 108, 111], none)]) 0 [0, 0, 0] 0 5
    [104, 101, 108, 108, 111] [] rfl (ChunkedReader_allocated _) (clean_singleton _)
    (bytes_singleton _ _) (by decide) (by decide) (by decide)
  have hrun : runTracked [[0, 0, 0]]
      (ChunkedReader [([0, 5, 104, 101, 108, 108, 111], none)], 0) = some (r2, 5) := by
    simp only [runTracked, e]
    rfl
  have hinv := chunkedReader_leftover_invariant _ _ r2 5 hrun
  exact ⟨r2, hrun, l2, hinv.1, hinv.2.1⟩

/-! ### Several writes on one writer -/

/-- The bytes a `Write` on its own emits are its frames. -/
theorem ownOutput_eq (fuel : Nat) (b : List Byte) (hf : chunkCount b.length + 1 ≤ fuel) :
    ownOutput fuel b = (frames b).flatten := by
  obtain ⟨w2, e1, e2, _⟩ := Write_on_good_sink fuel (ChunkedWriter ⟨[], []⟩) b
    (by intro e he; simp [ChunkedWriter] at he) hf
  simp only [ownOutput, e1, Sink.received, e2]
  simp [ChunkedWriter]

/-- Successive writes on a sink that never fails all succeed and append their
frames to what the sink has. -/
theorem writeAll_on_good_sink (fuel : Nat) (bs : List (List Byte)) : ∀ (w : chunkedWriter),
    w.Writer.neverFails → (∀ b ∈ bs, chunkCount b.length + 1 ≤ fuel) →
    ∃ w2, writeAll fuel w bs = some (bs.map (fun b => (b.length, none)), w2)
      ∧ w2.Writer.writes = w.Writer.writes ++ (bs.map frames).flatten
      ∧ w2.Writer.neverFails := by
  induction bs with
  | nil => intro w hw _; exact ⟨w, rfl, by simp, hw⟩
  | cons b bs ih =>
    intro w hw hf
    obtain ⟨w1, e1, e2, e3⟩ := Write_on_good_sink fuel w b hw (hf b (by simp))
    obtain ⟨w2, f1, f2, f3⟩ := ih w1 e3 (fun x hx => hf x (by simp [hx]))
    refine ⟨w2, ?_, ?_, f3⟩
    · simp only [writeAll, e1, f1, List.map_cons]
    · rw [f2, e2, List.map_cons, List.flatten_cons, List.append_assoc]

/-- Wire bytes of two chunk sequences one after the other. -/
theorem encode_append (ps qs : List (List Byte)) :
    encode (ps ++ qs) = encode ps ++ encode qs := by
  simp [encode]

/-- The frames of several inputs are the wire bytes of chunks of 1 to 8192 bytes
whose payloads make up the inputs one after the other. -/
theorem frames_encode_all (bs : List (List Byte)) :
    ∃ ps : List (List Byte), ((bs.map frames).flatten).flatten = encode ps
      ∧ ps.flatten = bs.flatten ∧ ∀ p ∈ ps, 1 ≤ p.length ∧ p.length ≤ 8192 := by
  induction bs with
  | nil => exact ⟨[], by simp [encode], rfl, by simp⟩
  | cons b bs ih =>
    obtain ⟨qs, q1, q2, q3⟩ := ih
    obtain ⟨ps, p1, p2, p3⟩ := frames_encode b.length b rfl
    refine ⟨ps ++ qs, ?_, ?_, ?_⟩
    · rw [List.map_cons, List.flatten_cons, List.flatten_append, p1, q1, encode_append]
    · rw [List.flatten_append, p2, q2, List.flatten_cons]
    · intro p hp
      rcases List.mem_append.mp hp with hp | hp
      · exact p3 p hp
      · exact q3 p hp

/-- C16. Multi-write round trip: successive `Write` calls with the buffers
`b_1, ..., b_n` on one writer over a sink that never fails and has received
nothing, with fuel for every call, all return `(len(b_i), nil)`; the sink receives
the outputs that each `Write(b_i)` emits on its own, one after the other; and for
every source that serves these bytes and every sequence of caller buffer sizes, a
fresh reader returns a beginning of `b_1 ++ ... ++ b_n`, no call fails other than
by `io.EOF`, the bytes returned up to the call that reports `io.EOF` are exactly
`b_1 ++ ... ++ b_n`, and that call comes once more reads with non-empty buffers
have been made than there are bytes. -/
theorem chunked_multi_write_round_trip (fuel : Nat) (w : chunkedWriter)
    (bs : List (List Byte))
    (hw : w.Writer.neverFails) (h0 : w.Writer.writes = [])
    (hf : ∀ b ∈ bs, chunkCount b.length + 1 ≤ fuel) :
    ∃ w2, writeAll fuel w bs = some (bs.map (fun b => (b.length, none)), w2) ∧
      w2.Writer.received = (bs.map (ownOutput fuel)).flatten ∧
      ∀ (src : Source), Source.clean src → Source.bytes src = w2.Writer.received →
        ∀ (sizes : List Nat),
          (readAll sizes (ChunkedReader src)).1 <+: bs.flatten ∧
          ((readAll sizes (ChunkedReader src)).2.1 = Stop.eof ∨
            (readAll sizes (ChunkedReader src)).2.1 = Stop.pending) ∧
          ((readAll sizes (ChunkedReader src)).2.1 = Stop.eof →
            (readAll sizes (ChunkedReader src)).1 = bs.flatten) ∧
          ((∀ s ∈ sizes, 1 ≤ s) → bs.flatten.length < sizes.length →
            (readAll sizes (ChunkedReader src)).2.1 = Stop.eof) := by
  obtain ⟨w2, e1, e2, _⟩ := writeAll_on_good_sink fuel bs w hw hf
  have hrec : w2.Writer.received = ((bs.map frames).flatten).flatten := by
    rw [Sink.received, e2, h0, List.nil_append]
  refine ⟨w2, e1, ?_, ?_⟩
  · rw [hrec, List.flatten_flatten, List.map_map]
    congr 1
    apply List.map_congr_left
    intro b hb
    simp only [Function.comp]
    rw [ownOutput_eq fuel b (hf b hb)]
  · intro src hc hb sizes
    obtain ⟨ps, p1, p2, p3⟩ := frames_encode_all bs
    have := readAll_encode sizes (ChunkedReader src) ps (ChunkedReader_allocated _) hc
      (by rw [← p1, ← hrec]; exact hb)
      (fun p hp => ⟨(p3 p hp).1, le_trans (p3 p hp).2 (by decide)⟩)
    simpa [ChunkedReader, p2] using this

/-- Witness of C16: "he" and "llo" written by two calls and read back with 2-byte
buffers from a source that serves the received bytes in one piece. -/
theorem chunked_multi_write_round_trip_witness :
    (ChunkedWriter ⟨[], []⟩).Writer.neverFails ∧
    (ChunkedWriter ⟨[], []⟩).Writer.writes = [] ∧
    (∀ b ∈ ([[104, 101], [108, 108, 111]] : List (List Byte)), chunkCount b.length + 1 ≤ 2) ∧
    ∃ w2, writeAll 2 (ChunkedWriter ⟨[], []⟩) [[104, 101], [108, 108, 111]]
        = some ([(2, none), (3, none)], w2) ∧
      w2.Writer.received = [0, 2, 104, 101, 0, 3, 108, 108, 111] ∧
      (readAll [2, 2, 2, 2, 2, 2] (ChunkedReader [(w2.Writer.received, none)])).1
        = [104, 101, 108, 108, 111] ∧
      (readAll [2, 2, 2, 2, 2, 2] (ChunkedReader [(w2.Writer.received, none)])).2.1
        = Stop.eof := by
  have h1 : (ChunkedWriter ⟨[], []⟩).Writer.neverFails := by
    intro e he; simp [ChunkedWriter] at he
  have h2 : ∀ b ∈ ([[104, 101], [108, 108, 111]] : List (List Byte)),
      chunkCount b.length + 1 ≤ 2 := by decide
  obtain ⟨w2, e1, e2, e3⟩ :=
    chunked_multi_write_round_trip 2 (ChunkedWriter ⟨[], []⟩) [[104, 101], [108, 108, 111]]
      h1 rfl h2
  obtain ⟨_, _, i3, i4⟩ := e3 [(w2.Writer.received, none)] (clean_singleton _)
    (bytes_singleton _ _) [2, 2, 2, 2, 2, 2]
  have heof := i4 (by decide) (by decide)
  refine ⟨h1, rfl, h2, w2, e1, ?_, i3 heof, heof⟩
  rw [e2]
  decide

end vmess
